import Mathlib

/-!
Shallow embedding of the KissECC elliptic-curve library (src/utils.rs,
src/point.rs, src/edwards_curve.rs, src/twisted_curve.rs,
src/weierstrass_ecc.rs, src/montgomery_curve.rs).

The Rust code is generic over a signed integer type T (the demo and the
tests instantiate T = i32).  We model T by the unbounded Int with the Rust
operator semantics of signed integers: the remainder operator is truncated
remainder (Int.tmod, sign of the dividend) and division is truncated
division (Int.tdiv).  Abnormal termination of the Rust code -- a failed
assert, a failed expect/unwrap, an integer conversion failure, a division
by a zero modulus, or a loop that cannot terminate -- is modelled by
Option.none; every such site is commented at its definition.

Each Rust while loop becomes a structurally recursive function with an
explicit fuel argument, so that every definition is kernel-computable.
The fuel passed at each call site is proved sufficient (the lemmas named
with the suffix fuelFree below), so the fuel-exhausted branch never
decides the value of a loop that the Rust program runs to completion.
-/

/-- Equality of Rust Result values (modelled by Except) is decidable when
both component types have decidable equality. -/
instance {e a : Type} [DecidableEq e] [DecidableEq a] : DecidableEq (Except e a) :=
  fun u v =>
    match u, v with
    | .error x, .error y =>
      if h : x = y then .isTrue (by rw [h])
      else .isFalse (by intro hc; cases hc; exact h rfl)
    | .error _, .ok _ => .isFalse (by intro hc; cases hc)
    | .ok _, .error _ => .isFalse (by intro hc; cases hc)
    | .ok x, .ok y =>
      if h : x = y then .isTrue (by rw [h])
      else .isFalse (by intro hc; cases hc; exact h rfl)

namespace Utils

/-- The square-and-multiply loop of Utils::modpow (src/utils.rs, lines
17-27): while e > 0, multiply the accumulator by b when e is odd, then
halve e and square b, all modulo m.  The exponent halves at each step, so
a fuel equal to the initial exponent is sufficient. -/
def mpAux : Nat → Int → Nat → Int → Int → Int
  | 0, _, _, _, result => result
  | fuel + 1, b, e, m, result =>
    if e = 0 then result
    else mpAux fuel ((b * b).tmod m) (e / 2) m
      (if e % 2 = 1 then (result * b).tmod m else result)

/-- Utils::modpow (src/utils.rs, lines 13-28).  The Rust exponent is a u32,
modelled by Nat.  The base is first reduced by the modulus.  (For a zero
modulus the Rust remainder operator aborts; callers that can reach a zero
modulus guard for it explicitly.) -/
def modpow (base : Int) (e : Nat) (m : Int) : Int :=
  mpAux e (base.tmod m) e m 1

/-- The extended-Euclid loop of Utils::mod_inv (src/utils.rs, lines
129-138), returning the pair (r, t) that is live after the loop.  The
absolute value of newR strictly decreases at each step (it becomes the
truncated remainder of r by newR), so a fuel above that absolute value is
sufficient. -/
def modInvLoop : Nat → Int → Int → Int → Int → Int × Int
  | 0, t, _, r, _ => (r, t)
  | fuel + 1, t, newT, r, newR =>
    if newR = 0 then (r, t)
    else modInvLoop fuel newT (t - r.tdiv newR * newT) newR (r - r.tdiv newR * newR)

/-- Utils::mod_inv (src/utils.rs, lines 108-147): extended Euclidean
algorithm; errors when the final remainder exceeds one; a negative
coefficient is shifted up by q once. -/
def mod_inv (a q : Int) : Except String Int :=
  let p := modInvLoop (a.natAbs + 1) 0 1 q a
  if 1 < p.1 then
    Except.error "Inverse does not exist because a and q are not coprime"
  else
    Except.ok (if p.2 < 0 then p.2 + q else p.2)

/-- The factor loop of Utils::tonelli_shanks (src/utils.rs, lines 64-69):
divide out the powers of two, returning (q, s) with the input equal to
q * 2 ^ s and q odd.  The value halves at each step, so a fuel equal to
the input is sufficient.  (For the input 0 the Rust loop does not
terminate; the caller guards for it.) -/
def oddFactorF : Nat → Nat → Nat × Nat
  | 0, n => (n, 0)
  | fuel + 1, n =>
    if n ≠ 0 ∧ n % 2 = 0 then
      let p := oddFactorF fuel (n / 2)
      (p.1, p.2 + 1)
    else (n, 0)

/-- The factor loop at its sufficient fuel. -/
def oddFactor (n : Nat) : Nat × Nat := oddFactorF n n

/-- The non-residue search of Utils::tonelli_shanks (src/utils.rs, lines
72-75): increment z from 2 until modpow z e p differs from 1.  The Rust
loop is unbounded; the fuel passed by tonelli_shanks is proved sufficient
for an odd prime p, and its exhaustion (divergence of the Rust loop) is
modelled by none. -/
def findZ (e : Nat) (p : Int) : Int → Nat → Option Int
  | _, 0 => none
  | z, fuel + 1 => if modpow z e p = 1 then findZ e p (z + 1) fuel else some z

/-- The inner search of Utils::tonelli_shanks (src/utils.rs, lines 89-92):
starting from i, increment while i < m and modpow t (2 ^ i) p differs
from 1.  At most m - i steps can run, so a fuel of m is sufficient for
any start i.  (Rust computes 2 ^ i as 1 << i on u32; in the reachable
states i < 32, so no overflow occurs.) -/
def findIF : Nat → Int → Int → Nat → Nat → Nat
  | 0, _, _, _, i => i
  | fuel + 1, t, p, m, i =>
    if i < m ∧ modpow t (2 ^ i) p ≠ 1 then findIF fuel t p m (i + 1) else i

/-- The inner search at its sufficient fuel. -/
def findI (t p : Int) (m i : Nat) : Nat := findIF m t p m i

/-- The main loop of Utils::tonelli_shanks (src/utils.rs, lines 87-102).
The value of m strictly decreases at each iteration, so a fuel of m + 1
is sufficient.  When m = 0 and t differs from 1, the Rust expression
m - i - 1 underflows on u32 (i is then 1) and the program aborts; this
state, unreachable for a prime modulus, is modelled by none. -/
def tsLoopF : Nat → Int → Int → Int → Int → Nat → Option (Option Int)
  | 0, _, _, _, _, _ => none
  | fuel + 1, p, c, x, t, m =>
    if t = 1 then some (some x)
    else if m = 0 then none
    else
      let i := findI t p m 1
      if i = m then some none
      else
        let b := modpow c (2 ^ (m - i - 1)) p
        tsLoopF fuel p ((b * b).tmod p) ((x * b).tmod p) ((t * b * b).tmod p) i

/-- The main loop at its sufficient fuel. -/
def tsLoop (p c x t : Int) (m : Nat) : Option (Option Int) :=
  tsLoopF (m + 1) p c x t m

/-- Utils::tonelli_shanks (src/utils.rs, lines 34-104).  The outer none
models abnormal termination: the expect on p.to_u32 (p negative or at
least 2 ^ 32), the u32 underflow of p_u32 - 1 at p = 0, and the loops
that cannot terminate at p = 1 and p = 2.  The inner Option is the Rust
return value (none is NoSquareRoot). -/
def tonelli_shanks (a p : Int) : Option (Option Int) :=
  if a = 0 then some (some 0)
  else if p < 0 ∨ (4294967296 : Int) ≤ p then none
  else if p ≤ 2 then none
  else
    let pn := p.toNat
    let e := (pn - 1) / 2
    if modpow a e p ≠ 1 then some none
    else
      let qs := oddFactor (pn - 1)
      match findZ e p 2 pn with
      | none => none
      | some z =>
        tsLoop p (modpow z qs.1 p) (modpow a ((qs.1 + 1) / 2) p) (modpow a qs.1 p) qs.2

end Utils

/-- The point structure (src/point.rs, lines 7-11). -/
structure Point where
  x : Int
  y : Int
  z : Int
deriving DecidableEq

/-- Point::eq_affine (src/point.rs, lines 29-43).  The unwrap calls on the
two modular inverses abort on a non-invertible z; modelled by none. -/
def Point.eq_affine (self other : Point) (q : Int) : Option Bool :=
  if self.z = 0 ∨ other.z = 0 then some (decide (self = other))
  else
    match Utils.mod_inv self.z q, Utils.mod_inv other.z q with
    | .ok invS, .ok invO =>
        some (decide ((self.x * invS).tmod q = (other.x * invO).tmod q ∧
                      (self.y * invS).tmod q = (other.y * invO).tmod q))
    | _, _ => none

/-- The least significant bit of an Int as two's complement, written n & 1
in Rust; it equals the Euclidean remainder by 2. -/
def lowBit (n : Int) : Int := n.emod 2

/-- The shared double-and-add loop shape of the four mul implementations:
while n > 0, add m2 into the accumulator when the low bit of n is set,
shift n right one bit (arithmetic shift), and double m2 with the owning
curve addition.  Any abnormal termination of an addition propagates.  The
scalar halves at each step, so a fuel of n.toNat is sufficient (and when
n is not positive the loop body never runs, so fuel zero is exact). -/
def dblAddLoopF (add : Point → Point → Option Point) :
    Nat → Int → Point → Point → Option Point
  | 0, _, r, _ => some r
  | fuel + 1, n, r, m2 =>
    if 0 < n then
      match (if lowBit n = 1 then add r m2 else some r) with
      | none => none
      | some r2 =>
        match add m2 m2 with
        | none => none
        | some m4 => dblAddLoopF add fuel (Int.shiftRight n 1) r2 m4
    else some r

/-- The double-and-add loop at its sufficient fuel. -/
def dblAddLoop (add : Point → Point → Option Point) (n : Int) (r m2 : Point) :
    Option Point :=
  dblAddLoopF add n.toNat n r m2

/-- The shared order-search loop shape of the four order implementations
(e.g. src/edwards_curve.rs, lines 185-197): starting from the generator
with the counter at one, add the generator until the accumulator equals
the zero point, erroring with the owning curve message once the counter
passes q.  The bound check runs after the addition, so the addition at
counter value q + 1 is still executed.  The counter grows by one per
iteration and the loop stops once it passes q, so a fuel of
(q - ord).toNat + 1 is sufficient. -/
def orderLoopF (q : Int) (zero : Point) (step : Point → Option Point)
    (msg : String) : Nat → Int → Point → Option (Except String Int)
  | 0, ord, cur => if cur = zero then some (Except.ok ord) else none
  | fuel + 1, ord, cur =>
    if cur = zero then some (Except.ok ord)
    else
      match step cur with
      | none => none
      | some cur2 =>
        if q < ord + 1 then some (Except.error msg)
        else orderLoopF q zero step msg fuel (ord + 1) cur2

/-- The order-search loop at its sufficient fuel. -/
def orderLoop (q : Int) (zero : Point) (step : Point → Option Point)
    (msg : String) (ord : Int) (cur : Point) : Option (Except String Int) :=
  orderLoopF q zero step msg ((q - ord).toNat + 1) ord cur

/-- The Edwards curve record (src/edwards_curve.rs, lines 12-20). -/
structure EdwardsCurve where
  a : Int
  d : Int
  q : Int
  i : Int
  zero : Point
deriving DecidableEq

namespace EdwardsCurve

/-- EdwardsCurve::new (src/edwards_curve.rs, lines 42-57).  The constructor
performs no degeneracy checks; it only aborts when the exponent (q-1)/4
does not convert to u32 (the expect on to_u32), or at q = 0 where the
remainder inside modpow aborts. -/
def new (a d q : Int) : Option EdwardsCurve :=
  let e := (q - 1).tdiv 4
  if e < 0 ∨ (4294967296 : Int) ≤ e then none
  else if q = 0 then none
  else some { a := a, d := d, q := q, i := Utils.modpow 2 e.toNat q, zero := ⟨0, 1, 0⟩ }

/-- EdwardsCurve::is_valid (src/edwards_curve.rs, lines 112-119). -/
def is_valid (c : EdwardsCurve) (p : Point) : Bool :=
  decide ((c.a * p.x * p.x + p.y * p.y).tmod c.q =
          (1 + c.d * p.x * p.x * p.y * p.y).tmod c.q)

/-- EdwardsCurve::add (src/edwards_curve.rs, lines 143-159).  The expect
calls on the two modular inverses abort on a non-invertible denominator;
modelled by none. -/
def add (c : EdwardsCurve) (p q1 : Point) : Option Point :=
  let q := c.q
  let denom1 := (1 + c.d * p.x * q1.x * p.y * q1.y).tmod q
  let denom2 := (1 - c.d * p.x * q1.x * p.y * q1.y).tmod q
  match Utils.mod_inv denom1 q, Utils.mod_inv denom2 q with
  | .ok inv1, .ok inv2 =>
      some ⟨(((p.x * q1.y) + (q1.x * p.y)) * inv1).tmod q,
            (((p.y * q1.y) + (p.x * q1.x)) * inv2).tmod q, 0⟩
  | _, _ => none

/-- EdwardsCurve::double (src/edwards_curve.rs, lines 162-164). -/
def double (c : EdwardsCurve) (p : Point) : Option Point := c.add p p

/-- EdwardsCurve::mul (src/edwards_curve.rs, lines 169-182). -/
def mul (c : EdwardsCurve) (n : Int) (p : Point) : Option Point :=
  dblAddLoop c.add n c.zero p

/-- EdwardsCurve::order (src/edwards_curve.rs, lines 185-197). -/
def order (c : EdwardsCurve) (g : Point) : Option (Except String Int) :=
  orderLoop c.q c.zero (fun cur => c.add cur g)
    "Order not found within group bounds" 1 g

end EdwardsCurve

/-- The twisted Edwards curve record (src/twisted_curve.rs, lines 19-26). -/
structure TwistedCurve where
  a : Int
  b : Int
  q : Int
  I : Int
  zero : Point
  order : Int
deriving DecidableEq

namespace TwistedCurve

/-- TwistedCurve::new (src/twisted_curve.rs, lines 50-68): asserts q > 2,
a and b nonzero and distinct, then computes I; the expect on to_u32
aborts when (q-1)/4 does not fit u32. -/
def new (a b q ord : Int) : Option TwistedCurve :=
  if 2 < q ∧ a ≠ 0 ∧ b ≠ 0 ∧ a ≠ b then
    let e := (q - 1).tdiv 4
    if e < 0 ∨ (4294967296 : Int) ≤ e then none
    else some { a := a, b := b, q := q, I := Utils.modpow 2 e.toNat q,
                zero := ⟨0, 1, 0⟩, order := ord }
  else none

/-- TwistedCurve::is_valid (src/twisted_curve.rs, lines 151-158): checks
the a = -1 form of the equation, 0 - x^2 + y^2 - 1 - b*x^2*y^2 = 0 mod q,
under the truncated remainder. -/
def is_valid (c : TwistedCurve) (p : Point) : Bool :=
  decide ((0 - (p.x * p.x) + (p.y * p.y) - 1 -
           (c.b * p.x * p.x * p.y * p.y)).tmod c.q = 0)

/-- TwistedCurve::edwards_add (src/twisted_curve.rs, lines 108-123).  The
expect calls on the two modular inverses abort on a non-invertible
denominator; modelled by none. -/
def edwards_add (c : TwistedCurve) (p q1 : Point) : Option Point :=
  let q := c.q
  let factor := (c.b * p.x * q1.x * p.y * q1.y).tmod q
  let denom1 := (1 + factor).tmod q
  let denom2 := (1 - factor).tmod q
  match Utils.mod_inv denom1 q, Utils.mod_inv denom2 q with
  | .ok inv1, .ok inv2 =>
      some ⟨(((p.x * q1.y) + (q1.x * p.y)) * inv1).tmod q,
            (((p.y * q1.y) - (c.a * p.x * q1.x)) * inv2).tmod q, 0⟩
  | _, _ => none

/-- TwistedCurve::add (src/twisted_curve.rs, lines 174-182). -/
def add (c : TwistedCurve) (p q1 : Point) : Option Point :=
  if p = c.zero then some q1
  else if q1 = c.zero then some p
  else c.edwards_add p q1

/-- TwistedCurve::double (src/twisted_curve.rs, lines 185-187). -/
def double (c : TwistedCurve) (p : Point) : Option Point := c.add p p

/-- TwistedCurve::mul (src/twisted_curve.rs, lines 190-202); the scalar is
an i32 in the source. -/
def mul (c : TwistedCurve) (n : Int) (p : Point) : Option Point :=
  dblAddLoop c.add n c.zero p

/-- TwistedCurve::order, the trait method (src/twisted_curve.rs, lines
205-217).  Named pointOrder because the record already has an order
field, exactly as in the source. -/
def pointOrder (c : TwistedCurve) (g : Point) : Option (Except String Int) :=
  orderLoop c.q c.zero (fun cur => c.add cur g)
    "Order not found within group bounds" 1 g

end TwistedCurve

/-- The Weierstrass curve record (src/weierstrass_ecc.rs, lines 8-13). -/
structure WeierstrassECC where
  a : Int
  b : Int
  q : Int
deriving DecidableEq

namespace WeierstrassECC

/-- WeierstrassECC::new (src/weierstrass_ecc.rs, lines 33-39): asserts
q > 2 and a, b nonzero. -/
def new (a b q : Int) : Option WeierstrassECC :=
  if 2 < q ∧ a ≠ 0 ∧ b ≠ 0 then some ⟨a, b, q⟩ else none

/-- WeierstrassECC::normalize (src/weierstrass_ecc.rs, lines 44-59). -/
def normalize (c : WeierstrassECC) (p : Point) : Point :=
  if p = ⟨0, 0, 0⟩ then p
  else ⟨((p.x.tmod c.q) + c.q).tmod c.q, ((p.y.tmod c.q) + c.q).tmod c.q, 1⟩

/-- WeierstrassECC::is_valid (src/weierstrass_ecc.rs, lines 83-94). -/
def is_valid (c : WeierstrassECC) (p : Point) : Bool :=
  if p.x = 0 ∧ p.y = 0 then true
  else decide ((p.y * p.y).tmod c.q =
               (p.x * p.x * p.x + c.a * p.x + c.b).tmod c.q)

/-- WeierstrassECC::add (src/weierstrass_ecc.rs, lines 117-152).  The two
input asserts and the expect calls on the modular inverses abort;
modelled by none. -/
def add (c : WeierstrassECC) (p q1 : Point) : Option Point :=
  if ¬ c.is_valid p then none
  else if ¬ c.is_valid q1 then none
  else if p = ⟨0, 0, 0⟩ then some q1
  else if q1 = ⟨0, 0, 0⟩ then some p
  else if p.x = q1.x ∧ (p.y ≠ q1.y ∨ p.y = 0) then some ⟨0, 0, 0⟩
  else
    let lOpt : Option Int :=
      if p.x = q1.x then
        match Utils.mod_inv (2 * p.y) c.q with
        | .ok inv => some ((((3 * p.x * q1.x) + c.a) * inv).tmod c.q)
        | .error _ => none
      else
        match Utils.mod_inv ((q1.x - p.x).tmod c.q) c.q with
        | .ok inv => some (((q1.y - p.y) * inv).tmod c.q)
        | .error _ => none
    match lOpt with
    | none => none
    | some l =>
      let rx := ((l * l) - p.x - q1.x).tmod c.q
      let ry := ((l * (p.x - rx)) - p.y).tmod c.q
      some (c.normalize ⟨rx, ry, 0⟩)

/-- WeierstrassECC::double (src/weierstrass_ecc.rs, lines 154-194). -/
def double (c : WeierstrassECC) (p : Point) : Option Point :=
  if p = ⟨0, 0, 0⟩ then some p
  else if p.y = 0 then some ⟨0, 0, 0⟩
  else
    let numerator := (3 * (p.x * p.x) + c.a).tmod c.q
    let denominator := (2 * p.y).tmod c.q
    match Utils.mod_inv denominator c.q with
    | .error _ => none
    | .ok invDen =>
      let lambda := (numerator * invDen).tmod c.q
      let x3 := ((lambda * lambda) - 2 * p.x).tmod c.q
      let y3 := ((lambda * (p.x - x3)) - p.y).tmod c.q
      some (c.normalize ⟨x3, y3, 1⟩)

/-- WeierstrassECC::mul (src/weierstrass_ecc.rs, lines 197-215): the
double-and-add loop from the (0,0,0) accumulator, then normalize. -/
def mul (c : WeierstrassECC) (n : Int) (p : Point) : Option Point :=
  (dblAddLoop c.add n ⟨0, 0, 0⟩ p).map c.normalize

/-- WeierstrassECC::order (src/weierstrass_ecc.rs, lines 217-232). -/
def order (c : WeierstrassECC) (g : Point) : Option (Except String Int) :=
  if ¬ c.is_valid g ∨ g = ⟨0, 0, 0⟩ then some (Except.error "Invalid point")
  else orderLoop c.q ⟨0, 0, 0⟩ (fun cur => c.add cur g)
    "Point order not found within group bounds" 1 g

end WeierstrassECC

/-- The Montgomery curve record (src/montgomery_curve.rs, lines 15-21). -/
structure MontgomeryCurve where
  A : Int
  B : Int
  q : Int
  order : Int
  zero : Point
deriving DecidableEq

namespace MontgomeryCurve

/-- MontgomeryCurve::new (src/montgomery_curve.rs, lines 45-56): asserts
q > 2 and A, B nonzero. -/
def new (A B q ord : Int) : Option MontgomeryCurve :=
  if 2 < q ∧ (A ≠ 0 ∧ B ≠ 0) then some ⟨A, B, q, ord, ⟨0, 1, 0⟩⟩ else none

/-- MontgomeryCurve::is_valid (src/montgomery_curve.rs, lines 87-98). -/
def is_valid (c : MontgomeryCurve) (p : Point) : Bool :=
  if p = c.zero then true
  else decide ((c.B * p.y * p.y).tmod c.q =
               (p.x * p.x * p.x + c.A * p.x * p.x + p.x).tmod c.q)

/-- MontgomeryCurve::add (src/montgomery_curve.rs, lines 121-171).  The
expect calls on the modular inverses abort; modelled by none. -/
def add (c : MontgomeryCurve) (p q1 : Point) : Option Point :=
  if p = c.zero then some q1
  else if q1 = c.zero then some p
  else if p.x = q1.x ∧ p.y ≠ q1.y then some c.zero
  else
    let xyOpt : Option (Int × Int) :=
      if p = q1 then
        let numerator := (3 * p.x * p.x + (2 * c.A * p.x) + 1).tmod c.q
        let denominator := (2 * c.B * p.y).tmod c.q
        match Utils.mod_inv denominator c.q with
        | .error _ => none
        | .ok invDen =>
          let lambda := (numerator * invDen).tmod c.q
          let x3 := (c.B * lambda * lambda - c.A - (2 * p.x)).tmod c.q
          some (x3, (lambda * (p.x - x3) - p.y).tmod c.q)
      else
        let numerator := (q1.y - p.y).tmod c.q
        let denominator := (q1.x - p.x).tmod c.q
        match Utils.mod_inv denominator c.q with
        | .error _ => none
        | .ok invDen =>
          let lambda := (numerator * invDen).tmod c.q
          let x3 := (c.B * lambda * lambda - c.A - p.x - q1.x).tmod c.q
          some (x3, (lambda * (p.x - x3) - p.y).tmod c.q)
    match xyOpt with
    | none => none
    | some (x3, y3) => some ⟨(x3 + c.q).tmod c.q, (y3 + c.q).tmod c.q, 1⟩

/-- MontgomeryCurve::double (src/montgomery_curve.rs, lines 174-176). -/
def double (c : MontgomeryCurve) (p : Point) : Option Point := c.add p p

/-- MontgomeryCurve::mul (src/montgomery_curve.rs, lines 179-191). -/
def mul (c : MontgomeryCurve) (n : Int) (p : Point) : Option Point :=
  dblAddLoop c.add n c.zero p

/-- MontgomeryCurve::order, the trait method (src/montgomery_curve.rs,
lines 194-205).  Named pointOrder because the record already has an order
field, exactly as in the source. -/
def pointOrder (c : MontgomeryCurve) (g : Point) : Option (Except String Int) :=
  orderLoop c.q c.zero (fun cur => c.add cur g)
    "Order not found within group bounds" 1 g

end MontgomeryCurve

/-!  ## Basic lemmas about the embedded toolkit -/

/-- The truncated remainder of a value a by b has absolute value below the
absolute value of b, whenever b is nonzero. -/
theorem natAbs_tmod_lt (a : Int) {b : Int} (hb : b ≠ 0) :
    (Int.tmod a b).natAbs < b.natAbs := by
  have hb' : 0 < b.natAbs := Int.natAbs_pos.mpr hb
  cases a with
  | ofNat m =>
    cases b with
    | ofNat n => simpa [Int.tmod] using Nat.mod_lt _ hb'
    | negSucc n => simpa [Int.tmod] using Nat.mod_lt _ (Nat.succ_pos n)
  | negSucc m =>
    cases b with
    | ofNat n => simpa [Int.tmod] using Nat.mod_lt _ hb'
    | negSucc n => simpa [Int.tmod] using Nat.mod_lt _ (Nat.succ_pos n)

/-- The loop of mpAux runs to completion for any fuel at least the
exponent, so the value of modpow never depends on the fuel bound. -/
theorem mpAux_fuelFree : ∀ (fuel fuel2 : Nat) (b : Int) (e : Nat) (m result : Int),
    e ≤ fuel → e ≤ fuel2 →
    Utils.mpAux fuel b e m result = Utils.mpAux fuel2 b e m result := by
  intro fuel
  induction fuel with
  | zero =>
    intro fuel2 b e m result he _
    have : e = 0 := Nat.le_zero.mp he
    subst this
    cases fuel2 with
    | zero => rfl
    | succ f2 => simp [Utils.mpAux]
  | succ f ih =>
    intro fuel2 b e m result he he2
    cases fuel2 with
    | zero =>
      have : e = 0 := Nat.le_zero.mp he2
      subst this
      simp [Utils.mpAux]
    | succ f2 =>
      by_cases h0 : e = 0
      · subst h0; simp [Utils.mpAux]
      · simp only [Utils.mpAux, if_neg h0]
        exact ih f2 _ _ _ _ (by omega) (by omega)

/-- The loop of modInvLoop runs to completion for any fuel above the
absolute value of newR, so the value of mod_inv never depends on the fuel
bound. -/
theorem modInvLoop_fuelFree : ∀ (fuel fuel2 : Nat) (t newT r newR : Int),
    newR.natAbs < fuel → newR.natAbs < fuel2 →
    Utils.modInvLoop fuel t newT r newR = Utils.modInvLoop fuel2 t newT r newR := by
  intro fuel
  induction fuel with
  | zero => intro _ _ _ _ _ h; omega
  | succ f ih =>
    intro fuel2 t newT r newR h h2
    cases fuel2 with
    | zero => omega
    | succ f2 =>
      by_cases h0 : newR = 0
      · subst h0; simp [Utils.modInvLoop]
      · simp only [Utils.modInvLoop, if_neg h0]
        have hd : r - r.tdiv newR * newR = Int.tmod r newR := by
          rw [Int.tmod_def]; ring
        have hlt := natAbs_tmod_lt r h0
        rw [hd]
        exact ih f2 _ _ _ _ (by omega) (by omega)

/-- One unfolding step of the extended-Euclid loop. -/
theorem modInvLoop_succ (fuel : Nat) (t newT r newR : Int) :
    Utils.modInvLoop (fuel + 1) t newT r newR =
      if newR = 0 then (r, t)
      else Utils.modInvLoop fuel newT (t - r.tdiv newR * newT) newR
        (r - r.tdiv newR * newR) := rfl

/-- The modular inverse of one is one, for every modulus. -/
theorem mod_inv_one (q : Int) : Utils.mod_inv 1 q = Except.ok 1 := by
  simp [Utils.mod_inv, Utils.modInvLoop]

/-! ## Claim theorems -/

/-- C1: the specification claims that for every curve variant, add, double
and mul map valid points to valid points.  The code violates this: on the
Weierstrass demo curve y^2 = x^3 + 2x + 3 mod 17 of the repository tests,
the valid points (5,6) and (2,7) are added to the point (12,3), which does
not satisfy the curve equation (the chord denominator 2 - 5 is reduced by
the truncated remainder to the negative value -3, and mod_inv of a
negative argument returns the inverse of its absolute value, so the slope
is negated and the y coordinate of the sum is corrupted; the true sum is
(12,2)). -/
theorem C1_weierstrass_add_breaks_validity :
    WeierstrassECC.is_valid ⟨2, 3, 17⟩ ⟨5, 6, 1⟩ = true ∧
    WeierstrassECC.is_valid ⟨2, 3, 17⟩ ⟨2, 7, 1⟩ = true ∧
    WeierstrassECC.add ⟨2, 3, 17⟩ ⟨5, 6, 1⟩ ⟨2, 7, 1⟩ = some ⟨12, 3, 1⟩ ∧
    WeierstrassECC.is_valid ⟨2, 3, 17⟩ ⟨12, 3, 1⟩ = false := by decide

/-- C2: the specification claims that the twisted is_valid accepts exactly
the identity and the points satisfying a*x^2 + y^2 = 1 + b*x^2*y^2 mod q,
and that on the curve a=2, b=3, q=17 the point (1,3) is valid.  The code
instead tests the fixed a = -1 form of the equation, so it rejects (1,3)
even though that point satisfies the claimed equation -- contradicting the
repository test twisted_test.rs as well, which asserts validity of (1,3)
on this very curve. -/
theorem C2_twisted_is_valid_wrong_equation :
    TwistedCurve.new 2 3 17 19 = some ⟨2, 3, 17, 16, ⟨0, 1, 0⟩, 19⟩ ∧
    TwistedCurve.is_valid ⟨2, 3, 17, 16, ⟨0, 1, 0⟩, 19⟩ ⟨1, 3, 0⟩ = false ∧
    (⟨1, 3, 0⟩ : Point) ≠ ⟨0, 1, 0⟩ ∧
    ((2 * 1 * 1 + 3 * 3 : Int).tmod 17 = (1 + 3 * 1 * 1 * 3 * 3 : Int).tmod 17) := by
  decide

/-- C6: the specification claims order(g) on a valid generator returns the
smallest n with n multiples of g reaching the identity, or a clean error
once the count passes q.  On the Weierstrass test curve with the valid
non-identity generator (5,6) (whose true order is 22, above q = 17, so
the claim promises the clean error), the code instead aborts: the third
iterated addition receives the off-curve point (13,14) produced by the
buggy add and fails its validity assert.  none models that abort, so
order returns neither a value nor an error. -/
theorem C6_order_aborts_on_test_generator :
    WeierstrassECC.is_valid ⟨2, 3, 17⟩ ⟨5, 6, 1⟩ = true ∧
    (⟨5, 6, 1⟩ : Point) ≠ ⟨0, 0, 0⟩ ∧
    WeierstrassECC.order ⟨2, 3, 17⟩ ⟨5, 6, 1⟩ = none := by decide

/-- C8 counterexample: the claim says every constructor, in particular the
Edwards one, rejects q at most 2 and zero coefficients.  The Edwards
constructor has no such checks: it accepts a = d = 0 with q = 5, and
a = d = 1 with q = 1. -/
theorem C8_edwards_new_accepts_degenerate :
    (EdwardsCurve.new 0 0 5).isSome = true ∧
    (EdwardsCurve.new 1 1 1).isSome = true := by decide

/-- C8 amended: the Weierstrass, twisted and Montgomery constructors abort
exactly when q is at most 2 or a coefficient is zero (or, for the twisted
curve, the coefficients are equal, or the exponent (q-1)/4 does not fit
u32); the Edwards constructor performs no degeneracy checks at all and
succeeds exactly when the exponent (q-1)/4 lies in the u32 range and q is
nonzero. -/
theorem C8_constructor_checks :
    (∀ a b q : Int, (WeierstrassECC.new a b q).isSome = true ↔
        2 < q ∧ a ≠ 0 ∧ b ≠ 0) ∧
    (∀ a b q ord : Int, (TwistedCurve.new a b q ord).isSome = true ↔
        2 < q ∧ a ≠ 0 ∧ b ≠ 0 ∧ a ≠ b ∧ (q - 1).tdiv 4 < 4294967296) ∧
    (∀ A B q ord : Int, (MontgomeryCurve.new A B q ord).isSome = true ↔
        2 < q ∧ A ≠ 0 ∧ B ≠ 0) ∧
    (∀ a d q : Int, (EdwardsCurve.new a d q).isSome = true ↔
        0 ≤ (q - 1).tdiv 4 ∧ (q - 1).tdiv 4 < 4294967296 ∧ q ≠ 0) := by
  refine ⟨?_, ?_, ?_, ?_⟩
  · intro a b q
    by_cases h : 2 < q ∧ a ≠ 0 ∧ b ≠ 0 <;> simp [WeierstrassECC.new, h]
  · intro a b q ord
    by_cases h : 2 < q ∧ a ≠ 0 ∧ b ≠ 0 ∧ a ≠ b
    · have he : ¬ ((q - 1).tdiv 4 < 0) := by
        have : (0 : Int) ≤ (q - 1).tdiv 4 :=
          Int.tdiv_nonneg (by omega) (by omega)
        omega
      by_cases h2 : (4294967296 : Int) ≤ (q - 1).tdiv 4 <;>
        simp [TwistedCurve.new, h, he, h2] <;> omega
    · simp only [TwistedCurve.new, if_neg h, Option.isSome_none,
        Bool.false_eq_true, false_iff]
      intro hc
      exact h ⟨hc.1, hc.2.1, hc.2.2.1, hc.2.2.2.1⟩
  · intro A B q ord
    by_cases h : 2 < q ∧ (A ≠ 0 ∧ B ≠ 0) <;> simp [MontgomeryCurve.new, h] <;> tauto
  · intro a d q
    by_cases h1 : (q - 1).tdiv 4 < 0 ∨ (4294967296 : Int) ≤ (q - 1).tdiv 4
    · simp only [EdwardsCurve.new, if_pos h1]
      simpa using fun h2 h3 => by omega
    · by_cases h2 : q = 0 <;> simp [EdwardsCurve.new, h1, h2] <;> omega

/-- C9: for every variant, multiplying any point by the scalar zero yields
the identity of the variant: (0,0,0) for Weierstrass (after the final
normalize, which leaves it unchanged), and the stored zero point (0,1,0)
set by the constructors of the three other variants.  The double-and-add
loop never runs for a zero scalar, so this holds for every point, valid
or not. -/
theorem C9_mul_zero_is_identity :
    (∀ (c : WeierstrassECC) (p : Point), c.mul 0 p = some ⟨0, 0, 0⟩) ∧
    (∀ (c : EdwardsCurve) (p : Point), c.zero = ⟨0, 1, 0⟩ →
      c.mul 0 p = some ⟨0, 1, 0⟩) ∧
    (∀ (c : TwistedCurve) (p : Point), c.zero = ⟨0, 1, 0⟩ →
      c.mul 0 p = some ⟨0, 1, 0⟩) ∧
    (∀ (c : MontgomeryCurve) (p : Point), c.zero = ⟨0, 1, 0⟩ →
      c.mul 0 p = some ⟨0, 1, 0⟩) := by
  refine ⟨fun c p => ?_, fun c p hz => ?_, fun c p hz => ?_, fun c p hz => ?_⟩
  · simp [WeierstrassECC.mul, dblAddLoop, dblAddLoopF, WeierstrassECC.normalize]
  · simp [EdwardsCurve.mul, dblAddLoop, dblAddLoopF, hz]
  · simp [TwistedCurve.mul, dblAddLoop, dblAddLoopF, hz]
  · simp [MontgomeryCurve.mul, dblAddLoop, dblAddLoopF, hz]

/-- C9 witness: the theorem applied on the four demo curves of the
repository tests. -/
theorem C9_mul_zero_is_identity_witness :
    WeierstrassECC.mul ⟨2, 3, 17⟩ 0 ⟨5, 6, 1⟩ = some ⟨0, 0, 0⟩ ∧
    EdwardsCurve.mul ⟨2, 3, 17, 16, ⟨0, 1, 0⟩⟩ 0 ⟨1, 3, 0⟩ = some ⟨0, 1, 0⟩ ∧
    TwistedCurve.mul ⟨2, 3, 17, 16, ⟨0, 1, 0⟩, 19⟩ 0 ⟨1, 3, 0⟩ = some ⟨0, 1, 0⟩ ∧
    MontgomeryCurve.mul ⟨2, 3, 17, 19, ⟨0, 1, 0⟩⟩ 0 ⟨5, 8, 1⟩ = some ⟨0, 1, 0⟩ :=
  ⟨C9_mul_zero_is_identity.1 ⟨2, 3, 17⟩ ⟨5, 6, 1⟩,
   C9_mul_zero_is_identity.2.1 ⟨2, 3, 17, 16, ⟨0, 1, 0⟩⟩ ⟨1, 3, 0⟩ (by decide),
   C9_mul_zero_is_identity.2.2.1 ⟨2, 3, 17, 16, ⟨0, 1, 0⟩, 19⟩ ⟨1, 3, 0⟩ (by decide),
   C9_mul_zero_is_identity.2.2.2 ⟨2, 3, 17, 19, ⟨0, 1, 0⟩⟩ ⟨5, 8, 1⟩ (by decide)⟩

/-- C3 counterexample: the claim promises add(identity, p) = p for every
valid p.  Edwards add rebuilds the point as (x mod q, y mod q, 0), so any
valid point in a non-canonical representation is changed: on the Edwards
test curve a=2, d=3, q=17, the point (1,3,1) is valid (validity ignores
z), yet adding the identity returns (1,3,0), a structurally different
point. -/
theorem C3_edwards_identity_add_changes_representation :
    EdwardsCurve.new 2 3 17 = some ⟨2, 3, 17, 16, ⟨0, 1, 0⟩⟩ ∧
    EdwardsCurve.is_valid ⟨2, 3, 17, 16, ⟨0, 1, 0⟩⟩ ⟨1, 3, 1⟩ = true ∧
    EdwardsCurve.add ⟨2, 3, 17, 16, ⟨0, 1, 0⟩⟩ ⟨0, 1, 0⟩ ⟨1, 3, 1⟩ = some ⟨1, 3, 0⟩ ∧
    (⟨1, 3, 0⟩ : Point) ≠ ⟨1, 3, 1⟩ := by decide

/-- C3 amended: adding the identity on either side returns the other point
unchanged -- structurally for the Weierstrass (identity (0,0,0), any
valid point), twisted and Montgomery variants (identity (0,1,0), any
point, by the explicit shortcut in add); for the Edwards variant, whose
add rebuilds the point as (x mod q, y mod q, 0), it holds for the valid
points in canonical representation, that is with coordinates in [0, q)
and z = 0. -/
theorem C3_add_identity :
    (∀ (c : WeierstrassECC) (p : Point), c.is_valid p = true →
      c.add ⟨0, 0, 0⟩ p = some p ∧ c.add p ⟨0, 0, 0⟩ = some p) ∧
    (∀ (c : EdwardsCurve) (p : Point), 1 < c.q → c.is_valid p = true →
      0 ≤ p.x → p.x < c.q → 0 ≤ p.y → p.y < c.q → p.z = 0 →
      c.add ⟨0, 1, 0⟩ p = some p ∧ c.add p ⟨0, 1, 0⟩ = some p) ∧
    (∀ (c : TwistedCurve) (p : Point), c.zero = ⟨0, 1, 0⟩ →
      c.add ⟨0, 1, 0⟩ p = some p ∧ c.add p ⟨0, 1, 0⟩ = some p) ∧
    (∀ (c : MontgomeryCurve) (p : Point), c.zero = ⟨0, 1, 0⟩ →
      c.add ⟨0, 1, 0⟩ p = some p ∧ c.add p ⟨0, 1, 0⟩ = some p) := by
  refine ⟨fun c p hv => ⟨?_, ?_⟩, fun c p hq hv hx0 hxq hy0 hyq hz => ⟨?_, ?_⟩,
    fun c p hz => ⟨?_, ?_⟩, fun c p hz => ⟨?_, ?_⟩⟩
  · have hid : c.is_valid ⟨0, 0, 0⟩ = true := by simp [WeierstrassECC.is_valid]
    simp [WeierstrassECC.add, hv, hid]
  · have hid : c.is_valid ⟨0, 0, 0⟩ = true := by simp [WeierstrassECC.is_valid]
    by_cases hp : p = (⟨0, 0, 0⟩ : Point) <;>
      simp [WeierstrassECC.add, hv, hid, hp]
  · obtain ⟨px, py, pz⟩ := p
    simp only [EdwardsCurve.add]
    norm_num
    rw [Int.tmod_eq_of_lt (by omega) hq, mod_inv_one]
    simp only [mul_one]
    simp only at hx0 hxq hy0 hyq hz
    rw [Int.tmod_eq_of_lt hx0 hxq, Int.tmod_eq_of_lt hy0 hyq, hz]
  · obtain ⟨px, py, pz⟩ := p
    simp only [EdwardsCurve.add]
    norm_num
    rw [Int.tmod_eq_of_lt (by omega) hq, mod_inv_one]
    simp only [mul_one]
    simp only at hx0 hxq hy0 hyq hz
    rw [Int.tmod_eq_of_lt hx0 hxq, Int.tmod_eq_of_lt hy0 hyq, hz]
  · simp [TwistedCurve.add, hz]
  · by_cases hp : p = (⟨0, 1, 0⟩ : Point) <;> simp [TwistedCurve.add, hz, hp]
  · simp [MontgomeryCurve.add, hz]
  · by_cases hp : p = (⟨0, 1, 0⟩ : Point) <;> simp [MontgomeryCurve.add, hz, hp]

/-- C3 witness: the amended theorem applied on the four demo curves of the
repository tests, with canonical valid points. -/
theorem C3_add_identity_witness :
    WeierstrassECC.add ⟨2, 3, 17⟩ ⟨0, 0, 0⟩ ⟨5, 6, 0⟩ = some ⟨5, 6, 0⟩ ∧
    EdwardsCurve.add ⟨2, 3, 17, 16, ⟨0, 1, 0⟩⟩ ⟨1, 3, 0⟩ ⟨0, 1, 0⟩ = some ⟨1, 3, 0⟩ ∧
    TwistedCurve.add ⟨2, 3, 17, 16, ⟨0, 1, 0⟩, 19⟩ ⟨0, 1, 0⟩ ⟨0, 16, 0⟩ = some ⟨0, 16, 0⟩ ∧
    MontgomeryCurve.add ⟨2, 3, 17, 19, ⟨0, 1, 0⟩⟩ ⟨3, 4, 0⟩ ⟨0, 1, 0⟩ = some ⟨3, 4, 0⟩ :=
  ⟨(C3_add_identity.1 ⟨2, 3, 17⟩ ⟨5, 6, 0⟩ (by decide)).1,
   (C3_add_identity.2.1 ⟨2, 3, 17, 16, ⟨0, 1, 0⟩⟩ ⟨1, 3, 0⟩ (by decide) (by decide)
     (by decide) (by decide) (by decide) (by decide) (by decide)).2,
   (C3_add_identity.2.2.1 ⟨2, 3, 17, 16, ⟨0, 1, 0⟩, 19⟩ ⟨0, 16, 0⟩ (by decide)).1,
   (C3_add_identity.2.2.2 ⟨2, 3, 17, 19, ⟨0, 1, 0⟩⟩ ⟨3, 4, 0⟩ (by decide)).2⟩

/-- C7 counterexample: the claim promises that a division meeting a
non-invertible divisor makes the operation return or propagate the
NoInverse error to the caller and never panic.  The code does the
opposite: Point::eq_affine unwraps the inverse of z = 2 modulo q = 4
(mod_inv errors there) and aborts, and Edwards add on the test curve
a=2, d=3, q=17 meets the denominator 1 - 18 = -17, congruent to zero, so
its expect aborts; neither function can even return an error, since their
Rust return types are bool and Point.  none models the abort. -/
theorem C7_division_panics_instead_of_propagating :
    Utils.mod_inv 2 4 =
      Except.error "Inverse does not exist because a and q are not coprime" ∧
    Point.eq_affine ⟨1, 1, 2⟩ ⟨0, 0, 1⟩ 4 = none ∧
    Utils.mod_inv ((1 - 3 * 1 * 1 * 1 * 6 : Int).tmod 17) 17 =
      Except.error "Inverse does not exist because a and q are not coprime" ∧
    EdwardsCurve.add ⟨2, 3, 17, 16, ⟨0, 1, 0⟩⟩ ⟨1, 1, 0⟩ ⟨1, 6, 0⟩ = none := by decide

/-- C7 amended: whenever a division inside any curve addition or doubling
(the tangent and chord slopes of Weierstrass add, Weierstrass double, the
two Edwards denominators, the two twisted-Edwards denominators reached
through twisted add on non-identity operands, the Montgomery tangent
slope reached through double and the Montgomery chord slope) or inside
Point::eq_affine meets a non-invertible divisor modulo q, the operation
aborts (the expect or unwrap on the NoInverse result panics); the error
is never propagated to the caller. -/
theorem C7_noninvertible_divisor_aborts :
    (∀ (p r : Point) (q : Int), p.z ≠ 0 → r.z ≠ 0 →
      (∃ s, Utils.mod_inv p.z q = Except.error s) → Point.eq_affine p r q = none) ∧
    (∀ (p r : Point) (q : Int), p.z ≠ 0 → r.z ≠ 0 →
      (∃ s, Utils.mod_inv r.z q = Except.error s) → Point.eq_affine p r q = none) ∧
    (∀ (c : EdwardsCurve) (p q1 : Point),
      (∃ s, Utils.mod_inv ((1 + c.d * p.x * q1.x * p.y * q1.y).tmod c.q) c.q =
        Except.error s) → c.add p q1 = none) ∧
    (∀ (c : EdwardsCurve) (p q1 : Point),
      (∃ s, Utils.mod_inv ((1 - c.d * p.x * q1.x * p.y * q1.y).tmod c.q) c.q =
        Except.error s) → c.add p q1 = none) ∧
    (∀ (c : TwistedCurve) (p q1 : Point), p ≠ c.zero → q1 ≠ c.zero →
      (∃ s, Utils.mod_inv
          ((1 + (c.b * p.x * q1.x * p.y * q1.y).tmod c.q).tmod c.q) c.q =
        Except.error s) → c.add p q1 = none) ∧
    (∀ (c : TwistedCurve) (p q1 : Point), p ≠ c.zero → q1 ≠ c.zero →
      (∃ s, Utils.mod_inv
          ((1 - (c.b * p.x * q1.x * p.y * q1.y).tmod c.q).tmod c.q) c.q =
        Except.error s) → c.add p q1 = none) ∧
    (∀ (c : WeierstrassECC) (p q1 : Point),
      c.is_valid p = true → c.is_valid q1 = true →
      p ≠ ⟨0, 0, 0⟩ → q1 ≠ ⟨0, 0, 0⟩ → p.x = q1.x → p.y = q1.y → p.y ≠ 0 →
      (∃ s, Utils.mod_inv (2 * p.y) c.q = Except.error s) → c.add p q1 = none) ∧
    (∀ (c : WeierstrassECC) (p q1 : Point),
      c.is_valid p = true → c.is_valid q1 = true →
      p ≠ ⟨0, 0, 0⟩ → q1 ≠ ⟨0, 0, 0⟩ → p.x ≠ q1.x →
      (∃ s, Utils.mod_inv ((q1.x - p.x).tmod c.q) c.q = Except.error s) →
      c.add p q1 = none) ∧
    (∀ (c : WeierstrassECC) (p : Point), p ≠ ⟨0, 0, 0⟩ → p.y ≠ 0 →
      (∃ s, Utils.mod_inv ((2 * p.y).tmod c.q) c.q = Except.error s) →
      c.double p = none) ∧
    (∀ (c : MontgomeryCurve) (p : Point), p ≠ c.zero →
      (∃ s, Utils.mod_inv ((2 * c.B * p.y).tmod c.q) c.q = Except.error s) →
      c.double p = none) ∧
    (∀ (c : MontgomeryCurve) (p q1 : Point), p ≠ c.zero → q1 ≠ c.zero →
      p ≠ q1 → ¬ (p.x = q1.x ∧ p.y ≠ q1.y) →
      (∃ s, Utils.mod_inv ((q1.x - p.x).tmod c.q) c.q = Except.error s) →
      c.add p q1 = none) := by
  refine ⟨fun p r q hp hr ⟨s, hs⟩ => ?_, fun p r q hp hr ⟨s, hs⟩ => ?_,
    fun c p q1 ⟨s, hs⟩ => ?_, fun c p q1 ⟨s, hs⟩ => ?_,
    fun c p q1 hp hq ⟨s, hs⟩ => ?_, fun c p q1 hp hq ⟨s, hs⟩ => ?_,
    fun c p q1 hv1 hv2 hp hq hx hy hy0 ⟨s, hs⟩ => ?_,
    fun c p q1 hv1 hv2 hp hq hx ⟨s, hs⟩ => ?_,
    fun c p hp hy0 ⟨s, hs⟩ => ?_,
    fun c p hp ⟨s, hs⟩ => ?_,
    fun c p q1 hp hq hne hg ⟨s, hs⟩ => ?_⟩
  · cases hro : Utils.mod_inv r.z q <;> simp [Point.eq_affine, hp, hr, hs, hro]
  · cases hpo : Utils.mod_inv p.z q <;> simp [Point.eq_affine, hp, hr, hs, hpo]
  · cases h2 : Utils.mod_inv ((1 - c.d * p.x * q1.x * p.y * q1.y).tmod c.q) c.q <;>
      simp [EdwardsCurve.add, hs, h2]
  · cases h1 : Utils.mod_inv ((1 + c.d * p.x * q1.x * p.y * q1.y).tmod c.q) c.q <;>
      simp [EdwardsCurve.add, hs, h1]
  · have hadd : c.add p q1 = c.edwards_add p q1 := by
      simp [TwistedCurve.add, hp, hq]
    rw [hadd]
    cases h2 : Utils.mod_inv
        ((1 - (c.b * p.x * q1.x * p.y * q1.y).tmod c.q).tmod c.q) c.q <;>
      simp [TwistedCurve.edwards_add, hs, h2]
  · have hadd : c.add p q1 = c.edwards_add p q1 := by
      simp [TwistedCurve.add, hp, hq]
    rw [hadd]
    cases h1 : Utils.mod_inv
        ((1 + (c.b * p.x * q1.x * p.y * q1.y).tmod c.q).tmod c.q) c.q <;>
      simp [TwistedCurve.edwards_add, hs, h1]
  · rw [hy] at hs hy0
    simp [WeierstrassECC.add, hv1, hv2, hp, hq, hx, hy, hy0, hs]
  · simp [WeierstrassECC.add, hv1, hv2, hp, hq, hx, hs]
  · simp [WeierstrassECC.double, hp, hy0, hs]
  · simp [MontgomeryCurve.double, MontgomeryCurve.add, hp, hs]
  · simp [MontgomeryCurve.add, hp, hq, hne, hg, hs]

/-- C7 witness: the amended theorem applied at a concrete non-invertible
divisor for every variant: the counterexample inputs for eq_affine and
Edwards add, and the composite modulus 9 with divisors sharing the factor
3 for the twisted, Weierstrass and Montgomery operations. -/
theorem C7_noninvertible_divisor_aborts_witness :
    Point.eq_affine ⟨1, 1, 2⟩ ⟨0, 0, 1⟩ 4 = none ∧
    EdwardsCurve.add ⟨2, 3, 17, 16, ⟨0, 1, 0⟩⟩ ⟨1, 1, 0⟩ ⟨1, 6, 0⟩ = none ∧
    TwistedCurve.add ⟨1, 2, 9, 0, ⟨0, 1, 0⟩, 0⟩ ⟨1, 1, 1⟩ ⟨1, 1, 1⟩ = none ∧
    WeierstrassECC.add ⟨1, 1, 9⟩ ⟨7, 3, 1⟩ ⟨7, 3, 1⟩ = none ∧
    WeierstrassECC.add ⟨1, 1, 9⟩ ⟨0, 1, 1⟩ ⟨3, 2, 1⟩ = none ∧
    WeierstrassECC.double ⟨1, 1, 9⟩ ⟨7, 3, 1⟩ = none ∧
    MontgomeryCurve.double ⟨1, 3, 9, 0, ⟨0, 1, 0⟩⟩ ⟨1, 1, 1⟩ = none ∧
    MontgomeryCurve.add ⟨1, 1, 9, 0, ⟨0, 1, 0⟩⟩ ⟨0, 1, 1⟩ ⟨3, 2, 1⟩ = none :=
  ⟨C7_noninvertible_divisor_aborts.1 ⟨1, 1, 2⟩ ⟨0, 0, 1⟩ 4 (by decide) (by decide)
      ⟨"Inverse does not exist because a and q are not coprime", by decide⟩,
   C7_noninvertible_divisor_aborts.2.2.2.1 ⟨2, 3, 17, 16, ⟨0, 1, 0⟩⟩ ⟨1, 1, 0⟩ ⟨1, 6, 0⟩
      ⟨"Inverse does not exist because a and q are not coprime", by decide⟩,
   C7_noninvertible_divisor_aborts.2.2.2.2.1 ⟨1, 2, 9, 0, ⟨0, 1, 0⟩, 0⟩ ⟨1, 1, 1⟩ ⟨1, 1, 1⟩
      (by decide) (by decide)
      ⟨"Inverse does not exist because a and q are not coprime", by decide⟩,
   C7_noninvertible_divisor_aborts.2.2.2.2.2.2.1 ⟨1, 1, 9⟩ ⟨7, 3, 1⟩ ⟨7, 3, 1⟩
      (by decide) (by decide) (by decide) (by decide) (by decide) (by decide) (by decide)
      ⟨"Inverse does not exist because a and q are not coprime", by decide⟩,
   C7_noninvertible_divisor_aborts.2.2.2.2.2.2.2.1 ⟨1, 1, 9⟩ ⟨0, 1, 1⟩ ⟨3, 2, 1⟩
      (by decide) (by decide) (by decide) (by decide) (by decide)
      ⟨"Inverse does not exist because a and q are not coprime", by decide⟩,
   C7_noninvertible_divisor_aborts.2.2.2.2.2.2.2.2.1 ⟨1, 1, 9⟩ ⟨7, 3, 1⟩
      (by decide) (by decide)
      ⟨"Inverse does not exist because a and q are not coprime", by decide⟩,
   C7_noninvertible_divisor_aborts.2.2.2.2.2.2.2.2.2.1 ⟨1, 3, 9, 0, ⟨0, 1, 0⟩⟩ ⟨1, 1, 1⟩
      (by decide)
      ⟨"Inverse does not exist because a and q are not coprime", by decide⟩,
   C7_noninvertible_divisor_aborts.2.2.2.2.2.2.2.2.2.2 ⟨1, 1, 9, 0, ⟨0, 1, 0⟩⟩ ⟨0, 1, 1⟩ ⟨3, 2, 1⟩
      (by decide) (by decide) (by decide) (by decide)
      ⟨"Inverse does not exist because a and q are not coprime", by decide⟩⟩

/-- C10 counterexample: the claim promises every non-identity point
returned by Weierstrass add is normalized with z = 1.  The identity
shortcut of add returns the other operand verbatim: adding (0,0,0) to the
valid point (5,6,0) returns (5,6,0), a non-identity point with z = 0. -/
theorem C10_add_identity_shortcut_not_normalized :
    WeierstrassECC.is_valid ⟨2, 3, 17⟩ ⟨5, 6, 0⟩ = true ∧
    WeierstrassECC.add ⟨2, 3, 17⟩ ⟨0, 0, 0⟩ ⟨5, 6, 0⟩ = some ⟨5, 6, 0⟩ ∧
    (⟨5, 6, 0⟩ : Point) ≠ ⟨0, 0, 0⟩ ∧
    Point.z ⟨5, 6, 0⟩ ≠ 1 := by decide

/-- Every output of WeierstrassECC::normalize with a positive modulus is
either the structural identity (0,0,0) or has both coordinates reduced
into [0, q) with z = 1. -/
theorem normalize_canonical (c : WeierstrassECC) (hq : 0 < c.q) (p : Point) :
    c.normalize p = ⟨0, 0, 0⟩ ∨
      (0 ≤ (c.normalize p).x ∧ (c.normalize p).x < c.q ∧
       0 ≤ (c.normalize p).y ∧ (c.normalize p).y < c.q ∧ (c.normalize p).z = 1) := by
  unfold WeierstrassECC.normalize
  by_cases hp : p = (⟨0, 0, 0⟩ : Point)
  · left
    simp [hp]
  · right
    have hq0 : c.q ≠ 0 := by omega
    have hx := natAbs_tmod_lt p.x hq0
    have hy := natAbs_tmod_lt p.y hq0
    simp only [if_neg hp]
    refine ⟨Int.tmod_nonneg _ (by omega), Int.tmod_lt_of_pos _ hq,
      Int.tmod_nonneg _ (by omega), Int.tmod_lt_of_pos _ hq, ?_⟩
    trivial

/-- C10 amended: with a positive modulus, every point produced by
Weierstrass mul or double, and every point produced by add on two
non-identity operands, is either the structural identity (0,0,0) or has
both coordinates in [0, q) and z = 1; add on an identity operand instead
returns the other operand verbatim (see the counterexample). -/
theorem C10_weierstrass_results_canonical (c : WeierstrassECC) (hq : 0 < c.q) :
    (∀ (n : Int) (pt r : Point), c.mul n pt = some r →
      r = ⟨0, 0, 0⟩ ∨
        (0 ≤ r.x ∧ r.x < c.q ∧ 0 ≤ r.y ∧ r.y < c.q ∧ r.z = 1)) ∧
    (∀ (pt r : Point), c.double pt = some r →
      r = ⟨0, 0, 0⟩ ∨
        (0 ≤ r.x ∧ r.x < c.q ∧ 0 ≤ r.y ∧ r.y < c.q ∧ r.z = 1)) ∧
    (∀ (p1 p2 r : Point), p1 ≠ ⟨0, 0, 0⟩ → p2 ≠ ⟨0, 0, 0⟩ →
      c.add p1 p2 = some r →
      r = ⟨0, 0, 0⟩ ∨
        (0 ≤ r.x ∧ r.x < c.q ∧ 0 ≤ r.y ∧ r.y < c.q ∧ r.z = 1)) := by
  refine ⟨fun n pt r h => ?_, fun pt r h => ?_, fun p1 p2 r h1 h2 h => ?_⟩
  · unfold WeierstrassECC.mul at h
    obtain ⟨r0, _, hr0⟩ := Option.map_eq_some'.mp h
    rw [← hr0]
    exact normalize_canonical c hq r0
  · unfold WeierstrassECC.double at h
    split_ifs at h with hid hy0
    · cases h
      left
      exact hid
    · cases h
      left
      rfl
    · cases hmi : Utils.mod_inv ((2 * pt.y).tmod c.q) c.q with
      | error e =>
        simp only [hmi] at h
        exact Option.noConfusion h
      | ok invDen =>
        simp only [hmi, Option.some.injEq] at h
        rw [← h]
        exact normalize_canonical c hq _
  · by_cases hv1 : c.is_valid p1 = true
    case neg => simp [WeierstrassECC.add, hv1] at h
    by_cases hv2 : c.is_valid p2 = true
    case neg => simp [WeierstrassECC.add, hv1, hv2] at h
    by_cases hxy : p1.x = p2.x ∧ (p1.y ≠ p2.y ∨ p1.y = 0)
    · simp only [WeierstrassECC.add, hv1, hv2, if_neg h1, if_neg h2, if_pos hxy,
        Bool.not_true, Bool.false_eq_true, not_true, if_false, Option.some.injEq] at h
      left
      exact h.symm
    · by_cases hx : p1.x = p2.x
      · cases hmi : Utils.mod_inv (2 * p1.y) c.q with
        | error e =>
          simp only [WeierstrassECC.add, hv1, hv2, if_neg h1, if_neg h2, if_neg hxy,
            Bool.not_true, Bool.false_eq_true, not_true, if_false, if_pos hx, hmi] at h
          exact Option.noConfusion h
        | ok inv =>
          simp only [WeierstrassECC.add, hv1, hv2, if_neg h1, if_neg h2, if_neg hxy,
            Bool.not_true, Bool.false_eq_true, not_true, if_false, if_pos hx, hmi,
            Option.some.injEq] at h
          rw [← h]
          exact normalize_canonical c hq _
      · cases hmi : Utils.mod_inv ((p2.x - p1.x).tmod c.q) c.q with
        | error e =>
          simp only [WeierstrassECC.add, hv1, hv2, if_neg h1, if_neg h2, if_neg hxy,
            Bool.not_true, Bool.false_eq_true, not_true, if_false, if_neg hx, hmi] at h
          exact Option.noConfusion h
        | ok inv =>
          simp only [WeierstrassECC.add, hv1, hv2, if_neg h1, if_neg h2, if_neg hxy,
            Bool.not_true, Bool.false_eq_true, not_true, if_false, if_neg hx, hmi,
            Option.some.injEq] at h
          rw [← h]
          exact normalize_canonical c hq _

/-- C10 witness: doubling the repository test point (5,6) on the demo
curve gives (15,12,1), which the amended theorem certifies as reduced
with z = 1. -/
theorem C10_weierstrass_results_canonical_witness :
    (⟨15, 12, 1⟩ : Point) = ⟨0, 0, 0⟩ ∨
      (0 ≤ (⟨15, 12, 1⟩ : Point).x ∧ (⟨15, 12, 1⟩ : Point).x < (17 : Int) ∧
       0 ≤ (⟨15, 12, 1⟩ : Point).y ∧ (⟨15, 12, 1⟩ : Point).y < (17 : Int) ∧
       (⟨15, 12, 1⟩ : Point).z = 1) :=
  (C10_weierstrass_results_canonical ⟨2, 3, 17⟩ (by decide)).2.1
    ⟨5, 6, 1⟩ ⟨15, 12, 1⟩ (by decide)


/-- Replacing r by its remainder after subtracting a multiple of s leaves
the gcd unchanged. -/
theorem gcd_step (u r s : Int) : Int.gcd s (r - u * s) = Int.gcd r s := by
  apply Nat.dvd_antisymm
  · have h1 : (↑(Int.gcd s (r - u * s)) : Int) ∣ s := Int.gcd_dvd_left
    have h2 : (↑(Int.gcd s (r - u * s)) : Int) ∣ (r - u * s) := Int.gcd_dvd_right
    have h3 : (↑(Int.gcd s (r - u * s)) : Int) ∣ r := by
      have h4 := dvd_add h2 (h1.mul_left u)
      simpa using h4
    exact Int.natCast_dvd_natCast.mp (Int.dvd_gcd h3 h1)
  · have h1 : (↑(Int.gcd r s) : Int) ∣ r := Int.gcd_dvd_left
    have h2 : (↑(Int.gcd r s) : Int) ∣ s := Int.gcd_dvd_right
    exact Int.natCast_dvd_natCast.mp (Int.dvd_gcd h2 (dvd_sub h1 (h2.mul_left u)))

/-- When t and nt have opposite signs, subtracting a nonnegative multiple
of nt from t adds the absolute values. -/
theorem natAbs_sub_opp (t nt u : Int) (h : t * nt ≤ 0) (hu : 0 ≤ u) :
    ((t - u * nt).natAbs : Int) = (t.natAbs : Int) + u * (nt.natAbs : Int) := by
  rcases mul_nonpos_iff.mp h with ⟨ht, hnt⟩ | ⟨ht, hnt⟩
  · have hm : u * nt ≤ 0 := mul_nonpos_of_nonneg_of_nonpos hu hnt
    have h1 : 0 ≤ t - u * nt := by omega
    rw [Int.natAbs_of_nonneg h1, Int.natAbs_of_nonneg ht,
      Int.ofNat_natAbs_of_nonpos hnt]
    ring
  · have hm : 0 ≤ u * nt := mul_nonneg hu hnt
    have h1 : t - u * nt ≤ 0 := by omega
    rw [Int.ofNat_natAbs_of_nonpos h1, Int.ofNat_natAbs_of_nonpos ht,
      Int.natAbs_of_nonneg hnt]
    ring

/-- The full invariant of the extended-Euclid loop for a nonnegative
second argument: the final remainder is the gcd of the two running
remainders, the final coefficient t satisfies A * t congruent to the
final remainder modulo Q, and its absolute value stays below Q. -/
theorem modInvLoop_invariant (A Q : Int) :
    ∀ (fuel : Nat) (t newT r newR : Int),
    newR.natAbs < fuel →
    0 ≤ newR → 1 ≤ r →
    t * newT ≤ 0 →
    (t.natAbs : Int) * newR + (newT.natAbs : Int) * r = Q →
    A * t ≡ r [ZMOD Q] → A * newT ≡ newR [ZMOD Q] →
    (t.natAbs : Int) ≤ Q →
    (Utils.modInvLoop fuel t newT r newR).1 = (Int.gcd r newR : Int) ∧
    A * (Utils.modInvLoop fuel t newT r newR).2 ≡
      (Utils.modInvLoop fuel t newT r newR).1 [ZMOD Q] ∧
    ((Utils.modInvLoop fuel t newT r newR).2.natAbs : Int) ≤ Q := by
  intro fuel
  induction fuel with
  | zero => intro t newT r newR hfuel; omega
  | succ f ih =>
    intro t newT r newR hfuel h0 hr hsign hdet hct hcnt habs
    by_cases hz : newR = 0
    · subst hz
      have hred : Utils.modInvLoop (f + 1) t newT r 0 = (r, t) := by
        simp [Utils.modInvLoop]
      rw [hred]
      refine ⟨?_, hct, habs⟩
      rw [Int.gcd_zero_right, Int.natAbs_of_nonneg (by omega)]
    · simp only [Utils.modInvLoop, if_neg hz]
      have hnewRpos : 0 < newR := by omega
      have hu0 : 0 ≤ r.tdiv newR := Int.tdiv_nonneg (by omega) (by omega)
      have hmod : r - r.tdiv newR * newR = Int.tmod r newR := by
        rw [Int.tmod_def]; ring
      have h0' : 0 ≤ r - r.tdiv newR * newR := by
        rw [hmod]; exact Int.tmod_nonneg _ (by omega)
      have hlt : (r - r.tdiv newR * newR).natAbs < newR.natAbs := by
        rw [hmod]; exact natAbs_tmod_lt r hz
      have hT0 : (0 : Int) ≤ (t.natAbs : Int) := Int.natCast_nonneg _
      have hNT0 : (0 : Int) ≤ (newT.natAbs : Int) := Int.natCast_nonneg _
      have hsign' : newT * (t - r.tdiv newR * newT) ≤ 0 := by
        have hsq : 0 ≤ newT * newT := mul_self_nonneg newT
        nlinarith
      have hdetstep : ((t - r.tdiv newR * newT).natAbs : Int) =
          (t.natAbs : Int) + r.tdiv newR * (newT.natAbs : Int) :=
        natAbs_sub_opp t newT (r.tdiv newR) hsign hu0
      have hdet' : ((newT.natAbs : Int)) * (r - r.tdiv newR * newR) +
          ((t - r.tdiv newR * newT).natAbs : Int) * newR = Q := by
        rw [hdetstep]
        have : (newT.natAbs : Int) * (r - r.tdiv newR * newR) +
            ((t.natAbs : Int) + r.tdiv newR * (newT.natAbs : Int)) * newR =
            (t.natAbs : Int) * newR + (newT.natAbs : Int) * r := by ring
        rw [this, hdet]
      have hcnt' : A * (t - r.tdiv newR * newT) ≡
          r - r.tdiv newR * newR [ZMOD Q] := by
        have hmul := Int.ModEq.mul_left (r.tdiv newR) hcnt
        have hsub := Int.ModEq.sub hct hmul
        have heq : A * t - r.tdiv newR * (A * newT) =
            A * (t - r.tdiv newR * newT) := by ring
        rwa [heq] at hsub
      have habs' : (newT.natAbs : Int) ≤ Q := by nlinarith
      have hresult := ih newT (t - r.tdiv newR * newT) newR
        (r - r.tdiv newR * newR) (by omega) h0' hnewRpos hsign' hdet' hcnt hcnt' habs'
      rwa [gcd_step (r.tdiv newR) r newR] at hresult

/-- C4 amended: for a prime modulus q and nonnegative a, mod_inv succeeds
exactly when gcd(a, q) = 1, with a result normalized into [0, q) whose
product with a is congruent to one modulo q; for gcd(a, q) distinct from
one it returns the NoInverse error.  (The nonnegativity restriction is
forced by the counterexample: for negative a the claim fails.) -/
theorem C4_mod_inv_spec (q : Nat) (hq : Nat.Prime q) (a : Int) (ha : 0 ≤ a) :
    (Int.gcd a q = 1 →
      ∃ r, Utils.mod_inv a q = Except.ok r ∧ 0 ≤ r ∧ r < q ∧ (a * r).tmod q = 1) ∧
    (Int.gcd a q ≠ 1 →
      Utils.mod_inv a q =
        Except.error "Inverse does not exist because a and q are not coprime") := by
  have hq2 : (2 : Int) ≤ (q : Int) := by exact_mod_cast hq.two_le
  have hinv := modInvLoop_invariant a (q : Int) (a.natAbs + 1) 0 1 (q : Int) a
    (by omega) ha (by omega) (by simp)
    (by simp)
    (by
      show a * 0 ≡ (q : Int) [ZMOD (q : Int)]
      simp [Int.ModEq, Int.emod_self])
    (by simp [Int.ModEq])
    (by simp)
  set res := Utils.modInvLoop (a.natAbs + 1) 0 1 (q : Int) a with hres
  obtain ⟨hg, hc, hb⟩ := hinv
  have hmi : Utils.mod_inv a (q : Int) =
      if 1 < res.1 then
        Except.error "Inverse does not exist because a and q are not coprime"
      else Except.ok (if res.2 < 0 then res.2 + (q : Int) else res.2) := rfl
  constructor
  · intro hgcd
    have hgq : Int.gcd (q : Int) a = 1 := by rw [Int.gcd_comm]; exact hgcd
    have hg1 : res.1 = 1 := by rw [hg, hgq]; norm_num
    rw [hg1] at hc
    refine ⟨if res.2 < 0 then res.2 + (q : Int) else res.2, ?_, ?_, ?_, ?_⟩
    · rw [hmi, hg1, if_neg (by norm_num)]
    · split_ifs with hs <;> omega
    · by_cases hs : res.2 < 0
      · simp only [if_pos hs]; omega
      · simp only [if_neg hs]
        rcases lt_or_eq_of_le (show res.2 ≤ (q : Int) by omega) with h | h
        · exact h
        · exfalso
          rw [h] at hc
          have h1 : (a * (q : Int)) % (q : Int) = 1 % (q : Int) := hc
          rw [Int.mul_emod_left] at h1
          rw [Int.emod_eq_of_lt (by omega) (by omega)] at h1
          omega
    · have hu : (if res.2 < 0 then res.2 + (q : Int) else res.2) ≡ res.2 [ZMOD (q : Int)] := by
        by_cases hs : res.2 < 0
        · simp only [if_pos hs]
          show (res.2 + (q : Int)) % (q : Int) = res.2 % (q : Int)
          have : res.2 + (q : Int) = res.2 + (q : Int) * 1 := by ring
          rw [this, Int.add_mul_emod_self_left]
        · simp only [if_neg hs]
          exact Int.ModEq.refl _
      have hcong : a * (if res.2 < 0 then res.2 + (q : Int) else res.2) ≡ 1 [ZMOD (q : Int)] :=
        (Int.ModEq.mul_left a hu).trans hc
      have hu0 : 0 ≤ (if res.2 < 0 then res.2 + (q : Int) else res.2) := by
        split_ifs with hs <;> omega
      have hprod : 0 ≤ a * (if res.2 < 0 then res.2 + (q : Int) else res.2) :=
        mul_nonneg ha hu0
      rw [Int.tmod_eq_emod hprod (by omega)]
      have h1 : (a * (if res.2 < 0 then res.2 + (q : Int) else res.2)) % (q : Int) =
          1 % (q : Int) := hcong
      rw [h1, Int.emod_eq_of_lt (by omega) (by omega)]
  · intro hgcd
    have hge1 : 1 ≤ Int.gcd (q : Int) a :=
      Int.gcd_pos_of_ne_zero_left a (by omega)
    have hne : Int.gcd (q : Int) a ≠ 1 := by rw [Int.gcd_comm]; exact hgcd
    have h2 : 1 < res.1 := by
      rw [hg]
      exact_mod_cast by omega
    rw [hmi, if_pos h2]

/-- C4 witness: the amended theorem applied at a = 3 and a = 34 with the
prime modulus 17. -/
theorem C4_mod_inv_spec_witness :
    (∃ r, Utils.mod_inv 3 17 = Except.ok r ∧ 0 ≤ r ∧ r < 17 ∧
      ((3 : Int) * r).tmod 17 = 1) ∧
    Utils.mod_inv 34 17 =
      Except.error "Inverse does not exist because a and q are not coprime" :=
  ⟨by
    have h := (C4_mod_inv_spec 17 (by norm_num) 3 (by norm_num)).1 (by decide)
    exact_mod_cast h,
   by
    have h := (C4_mod_inv_spec 17 (by norm_num) 34 (by norm_num)).2 (by decide)
    exact_mod_cast h⟩

/-- C4 counterexample: the claim quantifies over every a coprime to the
prime modulus; the field-element type is signed, and mod_inv does receive
negative arguments from the curve formulas (see C1, C7).  At a = -1,
q = 3, mod_inv succeeds with 1, but (-1) * 1 is not congruent to one
modulo 3, refuting the product property; and at a = -17, q = 17,
mod_inv succeeds although gcd(-17, 17) = 17, refuting that it fails
exactly when the gcd is not one. -/
theorem C4_mod_inv_negative_input :
    Nat.Prime 3 ∧ Int.gcd (-1) 3 = 1 ∧
    Utils.mod_inv (-1) 3 = Except.ok 1 ∧ ((-1 : Int) * 1).tmod 3 ≠ 1 ∧
    Int.gcd (-17) 17 ≠ 1 ∧ Utils.mod_inv (-17) 17 = Except.ok 1 := by decide

/-- Casting a truncated remainder by n into ZMod n is casting the value
itself. -/
theorem intCast_tmod_zmod (a : Int) (n : ℕ) :
    ((a.tmod (n : Int) : Int) : ZMod n) = (a : ZMod n) := by
  rw [Int.tmod_def]
  push_cast
  rw [ZMod.natCast_self]
  ring

/-- The modpow loop computes the power in ZMod n. -/
theorem mpAux_cast (n : ℕ) :
    ∀ (fuel : Nat) (b : Int) (e : Nat) (r : Int), e ≤ fuel →
    ((Utils.mpAux fuel b e (n : Int) r : Int) : ZMod n) =
      (r : ZMod n) * (b : ZMod n) ^ e := by
  intro fuel
  induction fuel with
  | zero =>
    intro b e r he
    have : e = 0 := by omega
    subst this
    simp [Utils.mpAux]
  | succ f ih =>
    intro b e r he
    by_cases he0 : e = 0
    · subst he0
      simp [Utils.mpAux]
    · simp only [Utils.mpAux, if_neg he0]
      rw [ih _ _ _ (by omega), intCast_tmod_zmod]
      push_cast
      by_cases ho : e % 2 = 1
      · rw [if_pos ho, intCast_tmod_zmod]
        push_cast
        have he2 : 2 * (e / 2) + 1 = e := by omega
        rw [← pow_two, ← pow_mul]
        conv_rhs => rw [← he2, pow_succ]
        ring
      · rw [if_neg ho]
        have he2 : 2 * (e / 2) = e := by omega
        rw [← pow_two, ← pow_mul, he2]

/-- modpow computes the power in ZMod n. -/
theorem modpow_cast (n : ℕ) (b : Int) (e : Nat) :
    ((Utils.modpow b e n : Int) : ZMod n) = (b : ZMod n) ^ e := by
  unfold Utils.modpow
  rw [mpAux_cast n e _ _ _ le_rfl, intCast_tmod_zmod]
  simp

/-- The modpow loop with a zero exponent returns its accumulator. -/
theorem mpAux_zero_e (fuel : Nat) (b m r : Int) :
    Utils.mpAux fuel b 0 m r = r := by
  cases fuel <;> simp [Utils.mpAux]

/-- With a positive exponent, a nonnegative base and accumulator, the
modpow loop lands in [0, m). -/
theorem mpAux_range (m : Int) (hm : 0 < m) :
    ∀ (fuel : Nat) (b : Int) (e : Nat) (r : Int), 1 ≤ e → e ≤ fuel →
    0 ≤ b → 0 ≤ r →
    0 ≤ Utils.mpAux fuel b e m r ∧ Utils.mpAux fuel b e m r < m := by
  intro fuel
  induction fuel with
  | zero => intro b e r he hef; omega
  | succ f ih =>
    intro b e r he hef hb hr
    have he0 : e ≠ 0 := by omega
    simp only [Utils.mpAux, if_neg he0]
    by_cases h2 : e / 2 = 0
    · have h1 : e = 1 := by omega
      subst h1
      rw [mpAux_zero_e]
      simp only [Nat.mod_self]
      norm_num
      exact ⟨Int.tmod_nonneg _ (mul_nonneg hr hb), Int.tmod_lt_of_pos _ hm⟩
    · refine ih _ _ _ (by omega) (by omega)
        (Int.tmod_nonneg _ (mul_nonneg hb hb)) ?_
      by_cases ho : e % 2 = 1
      · rw [if_pos ho]
        exact Int.tmod_nonneg _ (mul_nonneg hr hb)
      · rw [if_neg ho]
        exact hr

/-- With a positive exponent and nonnegative base, modpow lands in
[0, m). -/
theorem modpow_range (m : Int) (hm : 0 < m) (b : Int) (e : Nat)
    (he : 1 ≤ e) (hb : 0 ≤ b) :
    0 ≤ Utils.modpow b e m ∧ Utils.modpow b e m < m := by
  unfold Utils.modpow
  exact mpAux_range m hm e (b.tmod m) e 1 he le_rfl (Int.tmod_nonneg _ hb) (by omega)

/-- Two integers in [0, n) casting to the same residue are equal. -/
theorem int_eq_of_cast_eq {n : ℕ} {x y : Int} (hx0 : 0 ≤ x) (hxn : x < n)
    (hy0 : 0 ≤ y) (hyn : y < n) (h : (x : ZMod n) = (y : ZMod n)) : x = y := by
  rw [ZMod.intCast_eq_intCast_iff'] at h
  rwa [Int.emod_eq_of_lt hx0 hxn, Int.emod_eq_of_lt hy0 hyn] at h

/-- For a modulus of at least two, modpow of a nonnegative base with a
positive exponent returns one exactly when the power is one in ZMod n. -/
theorem modpow_eq_one_iff (n : ℕ) (hn : 2 ≤ n) (b : Int) (e : Nat)
    (he : 1 ≤ e) (hb : 0 ≤ b) :
    Utils.modpow b e n = 1 ↔ (b : ZMod n) ^ e = 1 := by
  have hm : (0 : Int) < n := by exact_mod_cast by omega
  obtain ⟨h0, h1⟩ := modpow_range n hm b e he hb
  constructor
  · intro h
    rw [← modpow_cast n b e, h]
    norm_num
  · intro h
    refine int_eq_of_cast_eq h0 h1 (by norm_num) (by exact_mod_cast by omega) ?_
    rw [modpow_cast n b e, h]
    norm_num

/-- The factor loop splits a positive number into an odd part and a power
of two. -/
theorem oddFactorF_spec :
    ∀ (fuel n : Nat), 0 < n → n ≤ fuel →
    (Utils.oddFactorF fuel n).1 % 2 = 1 ∧
    (Utils.oddFactorF fuel n).1 * 2 ^ (Utils.oddFactorF fuel n).2 = n := by
  intro fuel
  induction fuel with
  | zero => intro n h0 hf; omega
  | succ f ih =>
    intro n h0 hf
    by_cases hc : n ≠ 0 ∧ n % 2 = 0
    · simp only [Utils.oddFactorF, if_pos hc]
      obtain ⟨ih1, ih2⟩ := ih (n / 2) (by omega) (by omega)
      refine ⟨ih1, ?_⟩
      simp only [pow_succ]
      have : (Utils.oddFactorF f (n / 2)).1 * (2 ^ (Utils.oddFactorF f (n / 2)).2 * 2) =
          (Utils.oddFactorF f (n / 2)).1 * 2 ^ (Utils.oddFactorF f (n / 2)).2 * 2 := by
        ring
      rw [this, ih2]
      omega
    · simp only [Utils.oddFactorF, if_neg hc]
      have : n % 2 = 1 := by omega
      simpa using this

/-- oddFactor splits a positive number into an odd part and a power of
two. -/
theorem oddFactor_spec (n : Nat) (h0 : 0 < n) :
    (Utils.oddFactor n).1 % 2 = 1 ∧
    (Utils.oddFactor n).1 * 2 ^ (Utils.oddFactor n).2 = n :=
  oddFactorF_spec n n h0 le_rfl

/-- The non-residue search stops at the first value whose modpow differs
from one; it succeeds within the fuel whenever some value below the fuel
horizon qualifies. -/
theorem findZ_spec (e : Nat) (p : Int) :
    ∀ (fuel : Nat) (z w : Int), z ≤ w → w < z + fuel →
    Utils.modpow w e p ≠ 1 →
    ∃ zs, Utils.findZ e p z fuel = some zs ∧ Utils.modpow zs e p ≠ 1 ∧
      z ≤ zs ∧ zs ≤ w := by
  intro fuel
  induction fuel with
  | zero => intro z w h1 h2; omega
  | succ f ih =>
    intro z w h1 h2 hw
    by_cases hz : Utils.modpow z e p = 1
    · have hne : z ≠ w := fun h => hw (h ▸ hz)
      obtain ⟨zs, hzs1, hzs2, hzs3, hzs4⟩ := ih (z + 1) w (by omega) (by omega) hw
      exact ⟨zs, by simpa [Utils.findZ, hz] using hzs1, hzs2, by omega, hzs4⟩
    · exact ⟨z, by simp [Utils.findZ, hz], hz, le_rfl, h1⟩

/-- The inner search of the Tonelli-Shanks loop returns the least index
at least its start whose modpow power of t is one, provided one exists
within the fuel horizon and below m. -/
theorem findIF_spec (t p : Int) (m : Nat) :
    ∀ (fuel i j : Nat), i ≤ j → j < m → j < i + fuel →
    Utils.modpow t (2 ^ j) p = 1 →
    ∃ k, Utils.findIF fuel t p m i = k ∧ i ≤ k ∧ k ≤ j ∧
      Utils.modpow t (2 ^ k) p = 1 ∧
      ∀ v, i ≤ v → v < k → Utils.modpow t (2 ^ v) p ≠ 1 := by
  intro fuel
  induction fuel with
  | zero => intro i j h1 h2 h3; omega
  | succ f ih
    =>
    intro i j h1 h2 h3 hj
    by_cases hc : i < m ∧ Utils.modpow t (2 ^ i) p ≠ 1
    · have hne : i ≠ j := fun h => hc.2 (h ▸ hj)
      obtain ⟨k, hk1, hk2, hk3, hk4, hk5⟩ := ih (i + 1) j (by omega) h2 (by omega) hj
      refine ⟨k, by simpa [Utils.findIF, hc] using hk1, by omega, hk3, hk4, ?_⟩
      intro v hv1 hv2
      rcases Nat.eq_or_lt_of_le hv1 with h | h
      · rw [← h]; exact hc.2
      · exact hk5 v h hv2
    · have hi : Utils.modpow t (2 ^ i) p = 1 := by
        by_contra hni
        exact hc ⟨by omega, hni⟩
      exact ⟨i, by simp [Utils.findIF, hc], le_rfl, h1, hi, fun v hv1 hv2 => by omega⟩

/-- Correctness of the Tonelli-Shanks main loop: from a state satisfying
the loop invariants (x squares to A times t, t has two-power order
bounded by m - 1, and c is a generator of the two-part with exact order
2 ^ m), the loop returns a square root of A. -/
theorem tsLoop_correct (p : ℕ) [Fact p.Prime] (hp3 : 3 ≤ p) (A : ZMod p) :
    ∀ (m : Nat), 1 ≤ m → ∀ (fuel : Nat) (c x t : Int), m < fuel →
    0 ≤ c → c < p → 0 ≤ x → x < p → 0 ≤ t → t < p →
    ((x : ZMod p)) ^ 2 = A * (t : ZMod p) →
    ((t : ZMod p)) ^ (2 ^ (m - 1)) = 1 →
    ((c : ZMod p)) ^ (2 ^ (m - 1)) = -1 →
    ∃ xs, Utils.tsLoopF fuel (p : Int) c x t m = some (some xs) ∧
      0 ≤ xs ∧ xs < p ∧ ((xs : ZMod p)) ^ 2 = A := by
  intro m
  induction m using Nat.strong_induction_on with
  | _ m IH =>
    intro hm1 fuel c x t hfuel hc0 hcp hx0 hxp ht0 htp hXT hT hC
    obtain ⟨f, rfl⟩ : ∃ f, fuel = f + 1 := ⟨fuel - 1, by omega⟩
    by_cases ht1 : t = 1
    · refine ⟨x, ?_, hx0, hxp, ?_⟩
      · simp [Utils.tsLoopF, ht1]
      · rw [hXT, ht1]
        norm_num
    · have hp2 : 2 ≤ p := by omega
      have hpi : (0 : Int) < p := by exact_mod_cast by omega
      have h1p : (1 : Int) < p := by exact_mod_cast by omega
      have hm2 : 2 ≤ m := by
        by_contra hm2
        have hm1' : m = 1 := by omega
        rw [hm1'] at hT
        simp at hT
        exact ht1 (int_eq_of_cast_eq ht0 htp (by norm_num) h1p
          (by rw [hT]; norm_num))
      have hmod : Utils.modpow t (2 ^ (m - 1)) p = 1 := by
        rw [modpow_eq_one_iff p hp2 t _ Nat.one_le_two_pow ht0]
        exact hT
      obtain ⟨k, hkeq, hk1, hk2, hkmod, hkmin⟩ :=
        findIF_spec t p m m 1 (m - 1) (by omega) (by omega) (by omega) hmod
      have hkm : k < m := by omega
      have hfi : Utils.findI t p m 1 = k := by
        unfold Utils.findI
        exact hkeq
      have hTk : ((t : ZMod p)) ^ (2 ^ (k - 1)) = -1 := by
        have hsq : (((t : ZMod p)) ^ (2 ^ (k - 1))) *
            (((t : ZMod p)) ^ (2 ^ (k - 1))) = 1 := by
          rw [← pow_add]
          have hee : 2 ^ (k - 1) + 2 ^ (k - 1) = 2 ^ k := by
            have hh : k - 1 + 1 = k := by omega
            calc 2 ^ (k - 1) + 2 ^ (k - 1) = 2 ^ (k - 1 + 1) := by ring
            _ = 2 ^ k := by rw [hh]
          rw [hee, ← modpow_eq_one_iff p hp2 t _ Nat.one_le_two_pow ht0]
          exact hkmod
        rcases mul_self_eq_one_iff.mp hsq with h | h
        · exfalso
          by_cases hk1' : k = 1
          · rw [hk1'] at h
            simp at h
            exact ht1 (int_eq_of_cast_eq ht0 htp (by norm_num) h1p
              (by rw [h]; norm_num))
          · refine hkmin (k - 1) (by omega) (by omega) ?_
            rw [modpow_eq_one_iff p hp2 t _ Nat.one_le_two_pow ht0]
            exact h
        · exact h
      set B := Utils.modpow c (2 ^ (m - k - 1)) (p : Int) with hBdef
      obtain ⟨hB0, hBp⟩ :=
        modpow_range (p : Int) hpi c (2 ^ (m - k - 1)) Nat.one_le_two_pow hc0
      have hBcast : ((B : Int) : ZMod p) = ((c : ZMod p)) ^ (2 ^ (m - k - 1)) :=
        modpow_cast p c (2 ^ (m - k - 1))
      have hBsq : ((B : ZMod p)) * ((B : ZMod p)) = ((c : ZMod p)) ^ (2 ^ (m - k)) := by
        rw [hBcast, ← pow_add]
        have : 2 ^ (m - k - 1) + 2 ^ (m - k - 1) = 2 ^ (m - k) := by
          have hh : m - k - 1 + 1 = m - k := by omega
          calc 2 ^ (m - k - 1) + 2 ^ (m - k - 1) = 2 ^ (m - k - 1 + 1) := by ring
          _ = 2 ^ (m - k) := by rw [hh]
        rw [this]
      have hCm1 : (((c : ZMod p)) ^ (2 ^ (m - k))) ^ (2 ^ (k - 1)) = -1 := by
        rw [← pow_mul]
        have : 2 ^ (m - k) * 2 ^ (k - 1) = 2 ^ (m - 1) := by
          rw [← pow_add]
          have hh : m - k + (k - 1) = m - 1 := by omega
          rw [hh]
        rw [this, hC]
      -- the new state
      have hc0' : 0 ≤ (B * B).tmod (p : Int) :=
        Int.tmod_nonneg _ (mul_nonneg hB0 hB0)
      have hcp' : (B * B).tmod (p : Int) < p := Int.tmod_lt_of_pos _ hpi
      have hx0' : 0 ≤ (x * B).tmod (p : Int) :=
        Int.tmod_nonneg _ (mul_nonneg hx0 hB0)
      have hxp' : (x * B).tmod (p : Int) < p := Int.tmod_lt_of_pos _ hpi
      have ht0' : 0 ≤ (t * B * B).tmod (p : Int) :=
        Int.tmod_nonneg _ (mul_nonneg (mul_nonneg ht0 hB0) hB0)
      have htp' : (t * B * B).tmod (p : Int) < p := Int.tmod_lt_of_pos _ hpi
      have hcastc : (((B * B).tmod (p : Int) : Int) : ZMod p) =
          ((c : ZMod p)) ^ (2 ^ (m - k)) := by
        rw [intCast_tmod_zmod]
        push_cast
        rw [hBsq]
      have hcastx : (((x * B).tmod (p : Int) : Int) : ZMod p) =
          ((x : ZMod p)) * ((B : ZMod p)) := by
        rw [intCast_tmod_zmod]
        push_cast
        ring
      have hcastt : (((t * B * B).tmod (p : Int) : Int) : ZMod p) =
          ((t : ZMod p)) * (((c : ZMod p)) ^ (2 ^ (m - k))) := by
        rw [intCast_tmod_zmod]
        push_cast
        rw [← hBsq]
        ring
      have hXT' : ((((x * B).tmod (p : Int) : Int) : ZMod p)) ^ 2 =
          A * (((t * B * B).tmod (p : Int) : Int) : ZMod p) := by
        rw [hcastx, hcastt]
        have : (((x : ZMod p)) * ((B : ZMod p))) ^ 2 =
            (((x : ZMod p)) ^ 2) * (((B : ZMod p)) * ((B : ZMod p))) := by ring
        rw [this, hXT, hBsq]
        ring
      have hT' : ((((t * B * B).tmod (p : Int) : Int) : ZMod p)) ^ (2 ^ (k - 1)) = 1 := by
        rw [hcastt, mul_pow, hTk, hCm1]
        norm_num
      have hC' : ((((B * B).tmod (p : Int) : Int) : ZMod p)) ^ (2 ^ (k - 1)) = -1 := by
        rw [hcastc, hCm1]
      obtain ⟨xs, hxs1, hxs2, hxs3, hxs4⟩ := IH k hkm hk1 f
        ((B * B).tmod (p : Int)) ((x * B).tmod (p : Int)) ((t * B * B).tmod (p : Int))
        (by omega) hc0' hcp' hx0' hxp' ht0' htp' hXT' hT' hC'
      refine ⟨xs, ?_, hxs2, hxs3, hxs4⟩
      simp only [Utils.tsLoopF, if_neg ht1, hfi, if_neg (show ¬ m = 0 by omega),
        if_neg (show ¬ k = m by omega)]
      exact hxs1

/-- C5 amended: for an odd prime p below 2 ^ 32 (the modulus is converted
to u32 by an expect) and a NONNEGATIVE a: tonelli_shanks 0 p returns 0;
for a casting to a nonzero square of ZMod p it returns some x whose
square is congruent to a; and for a casting to a non-square it returns
the NoSquareRoot failure.  (Both restrictions are forced by the
counterexample: negative residues are rejected or mis-handled by the
sign-sensitive truncated remainder, and a large p aborts at to_u32.) -/
theorem C5_tonelli_spec (p : ℕ) (hp : p.Prime) (hodd : Odd p)
    (hp32 : p < 4294967296) (a : Int) (ha : 0 ≤ a) :
    Utils.tonelli_shanks 0 (p : Int) = some (some 0) ∧
    (((a : ZMod p) ≠ 0 ∧ IsSquare (a : ZMod p)) →
      ∃ x, Utils.tonelli_shanks a (p : Int) = some (some x) ∧
        x * x ≡ a [ZMOD (p : Int)]) ∧
    (¬ IsSquare (a : ZMod p) → Utils.tonelli_shanks a (p : Int) = some none) := by
  haveI : Fact p.Prime := ⟨hp⟩
  have hp2 : 2 ≤ p := hp.two_le
  have hpodd : p % 2 = 1 := Nat.odd_iff.mp hodd
  have hp3 : 3 ≤ p := by omega
  have hhalf : (p - 1) / 2 = p / 2 := by omega
  have he1 : 1 ≤ (p - 1) / 2 := by omega
  have hpi0 : (0 : Int) < (p : Int) := by exact_mod_cast by omega
  have hguard1 : ¬ ((p : Int) < 0 ∨ (4294967296 : Int) ≤ (p : Int)) := by
    push_neg
    constructor
    · exact_mod_cast Nat.zero_le p
    · exact_mod_cast hp32
  have hguard2 : ¬ ((p : Int) ≤ 2) := by exact_mod_cast by omega
  refine ⟨by simp [Utils.tonelli_shanks], ?_, ?_⟩
  · rintro ⟨hA, hsquare⟩
    have ha0 : a ≠ 0 := by
      intro h
      rw [h] at hA
      exact hA (by push_cast; rfl)
    have hsq1 : ((a : ZMod p)) ^ (p / 2) = 1 :=
      (ZMod.euler_criterion p hA).mp hsquare
    have hE1 : Utils.modpow a ((p - 1) / 2) (p : Int) = 1 := by
      rw [modpow_eq_one_iff p hp2 a _ he1 ha, hhalf]
      exact hsq1
    -- the odd factorization of p - 1
    obtain ⟨hq_odd, hq_eq⟩ := oddFactor_spec (p - 1) (by omega)
    set q0 := (Utils.oddFactor (p - 1)).1 with hq0def
    set s := (Utils.oddFactor (p - 1)).2 with hsdef
    have hs1 : 1 ≤ s := by
      by_contra hs0
      have hs0' : s = 0 := by omega
      rw [hs0'] at hq_eq
      simp at hq_eq
      omega
    have hq01 : 1 ≤ q0 := by
      rcases Nat.eq_zero_or_pos q0 with h | h
      · rw [h] at hq_eq; simp at hq_eq; omega
      · exact h
    have h2s : 2 ^ s = 2 ^ (s - 1) * 2 := by
      rw [← pow_succ]
      congr 1
      omega
    have hq0half : q0 * 2 ^ (s - 1) = (p - 1) / 2 := by
      have hK : (q0 * 2 ^ (s - 1)) * 2 = p - 1 := by
        rw [mul_assoc, ← h2s]
        exact hq_eq
      omega
    -- the non-residue search
    obtain ⟨b, hbns⟩ := FiniteField.exists_nonsquare
      (F := ZMod p) (by rw [ZMod.ringChar_zmod_n]; omega)
    have hb0 : b ≠ 0 := fun h => hbns (h ▸ ⟨0, by ring⟩)
    have hb1 : b ≠ 1 := fun h => hbns (h ▸ ⟨1, by ring⟩)
    have hbv : ((b.val : ℕ) : ZMod p) = b := ZMod.natCast_rightInverse b
    have hbv0 : b.val ≠ 0 := fun h => hb0 (by rw [← hbv, h]; simp)
    have hbv1 : b.val ≠ 1 := fun h => hb1 (by rw [← hbv, h]; simp)
    have hbvp : b.val < p := ZMod.val_lt b
    have hwcast : (((b.val : Int) : Int) : ZMod p) = b := by
      push_cast
      exact_mod_cast hbv
    have hwmod : Utils.modpow (b.val : Int) ((p - 1) / 2) (p : Int) ≠ 1 := by
      intro h
      rw [modpow_eq_one_iff p hp2 _ _ he1 (by positivity)] at h
      rw [hwcast, hhalf] at h
      exact hbns ((ZMod.euler_criterion p hb0).mpr h)
    obtain ⟨zs, hfz, hzsmod, hzs2, hzsw⟩ :=
      findZ_spec ((p - 1) / 2) (p : Int) p 2 (b.val : Int)
        (by exact_mod_cast by omega) (by push_cast; omega) hwmod
    have hzsp : zs < p := by
      have : ((b.val : Int)) < p := by exact_mod_cast hbvp
      omega
    have hzs0 : (0 : Int) ≤ zs := by omega
    have hZ0 : ((zs : ZMod p)) ≠ 0 := by
      intro h
      rw [ZMod.intCast_zmod_eq_zero_iff_dvd] at h
      have := Int.le_of_dvd (by omega) h
      omega
    have hZhalf : ((zs : ZMod p)) ^ ((p - 1) / 2) = -1 := by
      have hsq : (((zs : ZMod p)) ^ ((p - 1) / 2)) *
          (((zs : ZMod p)) ^ ((p - 1) / 2)) = 1 := by
        rw [← pow_add]
        have : (p - 1) / 2 + (p - 1) / 2 = p - 1 := by omega
        rw [this]
        exact ZMod.pow_card_sub_one_eq_one hZ0
      rcases mul_self_eq_one_iff.mp hsq with h | h
      · exfalso
        apply hzsmod
        rw [modpow_eq_one_iff p hp2 zs _ he1 hzs0]
        exact h
      · exact h
    -- the initial state of the main loop
    have hc0r := modpow_range (p : Int) hpi0 zs q0 hq01 hzs0
    have hx0r := modpow_range (p : Int) hpi0 a ((q0 + 1) / 2) (by omega) ha
    have ht0r := modpow_range (p : Int) hpi0 a q0 hq01 ha
    have hCc : ((Utils.modpow zs q0 (p : Int) : Int) : ZMod p) ^ (2 ^ (s - 1)) = -1 := by
      rw [modpow_cast, ← pow_mul, hq0half, hZhalf]
    have hTt : ((Utils.modpow a q0 (p : Int) : Int) : ZMod p) ^ (2 ^ (s - 1)) = 1 := by
      rw [modpow_cast, ← pow_mul, hq0half, hhalf]
      exact hsq1
    have hXX : ((Utils.modpow a ((q0 + 1) / 2) (p : Int) : Int) : ZMod p) ^ 2 =
        ((a : ZMod p)) * ((Utils.modpow a q0 (p : Int) : Int) : ZMod p) := by
      rw [modpow_cast, modpow_cast, ← pow_mul]
      have hq0e : (q0 + 1) / 2 * 2 = q0 + 1 := by omega
      rw [hq0e, pow_succ]
      ring
    obtain ⟨xs, hxs1, hxs2, hxs3, hxs4⟩ := tsLoop_correct p hp3 (a : ZMod p) s hs1
      (s + 1) (Utils.modpow zs q0 (p : Int)) (Utils.modpow a ((q0 + 1) / 2) (p : Int))
      (Utils.modpow a q0 (p : Int)) (by omega)
      hc0r.1 hc0r.2 hx0r.1 hx0r.2 ht0r.1 ht0r.2 hXX hTt hCc
    refine ⟨xs, ?_, ?_⟩
    · simp only [Utils.tonelli_shanks, if_neg ha0, if_neg hguard1, if_neg hguard2,
        Int.toNat_natCast]
      rw [if_neg (by rw [hE1]; simp)]
      simp only [hfz]
      exact hxs1
    · rw [← ZMod.intCast_eq_intCast_iff]
      push_cast
      rw [← pow_two]
      exact hxs4
  · intro hns
    have hA : ((a : ZMod p)) ≠ 0 := by
      intro h
      exact hns ⟨0, by rw [h]; ring⟩
    have hEne : Utils.modpow a ((p - 1) / 2) (p : Int) ≠ 1 := by
      intro h
      rw [modpow_eq_one_iff p hp2 a _ he1 ha, hhalf] at h
      exact hns ((ZMod.euler_criterion p hA).mpr h)
    have ha0 : a ≠ 0 := by
      intro h
      exact hns (by rw [h]; exact ⟨0, by push_cast; ring⟩)
    simp only [Utils.tonelli_shanks, if_neg ha0, if_neg hguard1, if_neg hguard2,
      Int.toNat_natCast]
    rw [if_pos hEne]

/-- C5 counterexample: -4 casts to the nonzero square 1 of ZMod 5, so the
claim promises a square root, but tonelli_shanks (-4) 5 reports
NoSquareRoot (the truncated remainder keeps intermediate powers
negative, so the final convergence test fails).  And for the odd prime
4294967311 (the least prime above 2 ^ 32) the claim promises a root of
the residue 1, but the expect on p.to_u32 aborts, modelled by the outer
none. -/
theorem C5_tonelli_negative_and_large_input :
    Nat.Prime 5 ∧ Odd 5 ∧ ((-4 : Int) : ZMod 5) ≠ 0 ∧
    IsSquare ((-4 : Int) : ZMod 5) ∧
    Utils.tonelli_shanks (-4) 5 = some none ∧
    Utils.tonelli_shanks 1 4294967311 = none := by decide

/-- C5 witness: the amended theorem applied at p = 5 with the residue 4
and the non-residue 3. -/
theorem C5_tonelli_spec_witness :
    (∃ x, Utils.tonelli_shanks 4 (5 : Int) = some (some x) ∧
      x * x ≡ 4 [ZMOD (5 : Int)]) ∧
    Utils.tonelli_shanks 3 (5 : Int) = some none ∧
    Utils.tonelli_shanks 0 (5 : Int) = some (some 0) := by
  have h := C5_tonelli_spec 5 (by norm_num) (by decide) (by norm_num) 4 (by norm_num)
  have h3 := C5_tonelli_spec 5 (by norm_num) (by decide) (by norm_num) 3 (by norm_num)
  refine ⟨?_, ?_, ?_⟩
  · have := h.2.1 ⟨by decide, by decide⟩
    exact_mod_cast this
  · have := h3.2.2 (by decide)
    exact_mod_cast this
  · have := h.1
    exact_mod_cast this
